import Mathlib

/-!
Verification of the meshoptimizer geometry compression codec against its
specification.

The repository ships the public header (`src/meshoptimizer.h`), which declares
the index/vertex codec entry points and defines the quantization helpers and
the C++ index-adapter templates inline.  The codec bodies themselves are not
part of the source tree, so the index and vertex codecs below are modelled
from the specification (sections 3, 4.1, 4.2, 4.3, 6, 7 of `spec.md`), with
the implementation freedoms the specification explicitly grants (the precise
operation-code table and bit widths, section 9) fixed as documented choices.

Machine integers are modelled as `Nat`/`Int` with explicit `% 2^w` where the
C code relies on wrap-around (byte deltas, adapter narrowing).  Fallible
decoding returns `Except DecodeError`.  All definitions are executable and
structurally recursive so that concrete streams evaluate by `rfl`/`decide`.
-/

/-- Error taxonomy of the codec, from spec section 7. -/
inductive DecodeError where
  | DestinationTooSmall
  | InvalidFormatVersion
  | CorruptStream
  | ShapeMismatch
deriving DecidableEq, Repr

/-! ### Bitstream primitives (spec section 4.1) -/

/-- Modelled from the spec: `zigzag(delta)` maps a signed delta `d` to an
unsigned value via `d >= 0 ? 2d : -2d-1` (spec section 4.1). -/
def zigzag (d : Int) : Nat :=
  if 0 ≤ d then (2 * d).toNat else (-2 * d - 1).toNat

/-- Modelled from the spec: inverse of `zigzag`; even values are nonnegative
deltas, odd values negative ones. -/
def unzigzag (u : Nat) : Int :=
  if u % 2 = 0 then ((u / 2 : Nat) : Int) else -(((u : Int) + 1) / 2)

/-- Fuel-driven worker for `writeVarint`: unsigned integer encoded 7 bits at
a time, low-order first, continuation bit (0x80) set in all but the last
emitted byte (spec section 4.1).  Fuel only forces structural recursion; it
is irrelevant once it is at least the value being encoded. -/
def varintEncF : Nat → Nat → List Nat
  | 0, v => [v % 128]
  | f + 1, v => if v < 128 then [v] else (128 + v % 128) :: varintEncF f (v / 128)

/-- Modelled from the spec: `writeVarint(value)` (spec section 4.1). -/
def varintEnc (v : Nat) : List Nat :=
  varintEncF v v

/-- Modelled from the spec: varint decoding; reads bytes until one without
the continuation bit, accumulating 7 bits at a time low-order first.  A
never-terminating continuation is bounded by the remaining buffer and is a
corrupt-stream condition (`none`). -/
def varintDec : List Nat → Option (Nat × List Nat)
  | [] => none
  | b :: rest =>
    if b < 128 then some (b, rest)
    else
      match varintDec rest with
      | some (v, r) => some (b % 128 + 128 * v, r)
      | none => none

/-! ### Index buffer codec (spec section 4.2)

The specification fixes the contract (lossless, deterministic FIFO replay)
and the algorithm structure, and grants the operation-code table as an
implementation choice (spec section 9).  Choices made here, stated once:

* Stream layout (spec section 6): one format-version byte (`1`) followed by
  the triangle records; nothing else.
* Each triangle starts with one operation-code byte.  Codes `0..47` are the
  edge-cache hits: code `3*s + r` means the directed edge number `r`
  (`0`: (a,b), `1`: (b,c), `2`: (c,a)) of the original triangle `(a,b,c)`
  matched the entry in slot `s` (`0` = newest) of the Edge History FIFO.
  Code `48` is the cache miss; codes above `48` are unrecognized.
* On a hit, only the third vertex follows: one byte `0..15` is a Vertex
  History back-reference (FIFO slot), byte `16` announces a
  `zigzag(index - last)` varint, bytes above `16` are unrecognized.
* On a miss, the three vertex indices follow as `zigzag(index - last)`
  varints, all three against the same `last`.
* `last` is the last vertex index of the previously emitted triangle
  (`0` before the first triangle, the graceful fallback of spec 4.2 step 3).
* Edge History entries are `(u, v, w)`: directed edge `u -> v` with opposite
  vertex `w`.  A triangle edge `(x, y)` matches an entry with `u = y`,
  `v = x` (the shared edge of an adjacent triangle with consistent winding
  appears reversed).  After each triangle both FIFOs are updated exactly as
  spec 4.2 step 4 prescribes, on encoder and decoder alike.
-/

/-- Edge/Vertex history state plus the delta base, shared by the encoder and
the decoder (spec section 3: both FIFOs have capacity 16 and start empty). -/
structure IState where
  edges : List (Nat × Nat × Nat)
  verts : List Nat
  last : Nat
deriving Repr

/-- Both FIFOs start empty; the delta base starts at 0. -/
def initIState : IState := ⟨[], [], 0⟩

/-- Push an entry into the Edge History FIFO, evicting the oldest entry when
the capacity of 16 would be exceeded (spec sections 3 and 4.2 step 4). -/
def pushEdge (e : Nat × Nat × Nat) (l : List (Nat × Nat × Nat)) : List (Nat × Nat × Nat) :=
  (e :: l).take 16

/-- Push a vertex into the Vertex History FIFO: only newly-seen vertices are
pushed (no duplicate entries), evicting the oldest on overflow (spec 4.2
step 4). -/
def pushVert (v : Nat) (l : List Nat) : List Nat :=
  if v ∈ l then l else (v :: l).take 16

/-- The state update after a triangle is emitted, identical on both sides
(spec 4.2 step 4): push the three (edge → opposite vertex) entries, push the
vertices, remember the triangle's final index as the new delta base. -/
def stepState (st : IState) (t : Nat × Nat × Nat) : IState :=
  { edges := pushEdge (t.2.2, t.1, t.2.1) (pushEdge (t.2.1, t.2.2, t.1)
      (pushEdge (t.1, t.2.1, t.2.2) st.edges))
    verts := pushVert t.2.2 (pushVert t.2.1 (pushVert t.1 st.verts))
    last := t.2.2 }

/-- First slot of a FIFO (a list, newest first) whose entry satisfies `p`. -/
def findSlot (p : α → Bool) : List α → Option Nat
  | [] => none
  | x :: xs =>
    if p x then some 0
    else
      match findSlot p xs with
      | some s => some (s + 1)
      | none => none

/-- A directed triangle edge `(x, y)` matches an Edge History entry `(u, v, w)`
iff `(u, v) = (y, x)`: the adjacent triangle with consistent winding holds
the shared edge reversed (spec 4.2 step 1, glossary "edge sharing"). -/
def edgeMatch (x y : Nat) (e : Nat × Nat × Nat) : Bool :=
  e.1 == y && e.2.1 == x

/-- Rotation `r` of a triangle: the rotation that brings edge `r` to the
front. -/
def rotTri (r : Nat) (t : Nat × Nat × Nat) : Nat × Nat × Nat :=
  match r with
  | 0 => t
  | 1 => (t.2.1, t.2.2, t.1)
  | _ => (t.2.2, t.1, t.2.1)

/-- Inverse of `rotTri`: rebuild the original triangle from the rotated one. -/
def unrotTri (r : Nat) (t : Nat × Nat × Nat) : Nat × Nat × Nat :=
  match r with
  | 0 => t
  | 1 => (t.2.2, t.1, t.2.1)
  | _ => (t.2.1, t.2.2, t.1)

/-- Probe the Edge History for the current triangle's three directed edges in
order (spec 4.2 step 1); return the first matching `(edge number, slot)`. -/
def findHit (edges : List (Nat × Nat × Nat)) (t : Nat × Nat × Nat) : Option (Nat × Nat) :=
  match findSlot (edgeMatch t.1 t.2.1) edges with
  | some s => some (0, s)
  | none =>
    match findSlot (edgeMatch t.2.1 t.2.2) edges with
    | some s => some (1, s)
    | none =>
      match findSlot (edgeMatch t.2.2 t.1) edges with
      | some s => some (2, s)
      | none => none

/-- Encode the third vertex of a cache-hit triangle (spec 4.2 step 2): a
Vertex History back-reference when possible, otherwise marker byte 16 and a
zig-zag varint delta against `last`. -/
def encThird (st : IState) (z : Nat) : List Nat :=
  match findSlot (fun v => v == z) st.verts with
  | some v => [v]
  | none => 16 :: varintEnc (zigzag ((z : Int) - (st.last : Int)))

/-- Encode one triangle (spec 4.2 steps 1-3): hit path with operation code
`3*s + r` and the third vertex, or miss code `48` with three zig-zag varint
deltas against `last`. -/
def encTri (st : IState) (t : Nat × Nat × Nat) : List Nat :=
  match findHit st.edges t with
  | some (r, s) => (3 * s + r) :: encThird st (rotTri r t).2.2
  | none =>
    48 :: (varintEnc (zigzag ((t.1 : Int) - (st.last : Int))) ++
      varintEnc (zigzag ((t.2.1 : Int) - (st.last : Int))) ++
      varintEnc (zigzag ((t.2.2 : Int) - (st.last : Int))))

/-- Encode a triangle list, threading the shared FIFO state (spec 4.2). -/
def encTris (st : IState) : List (Nat × Nat × Nat) → List Nat
  | [] => []
  | t :: ts => encTri st t ++ encTris (stepState st t) ts

/-- Group a flat index list into triangles; a trailing fragment of fewer than
three indices (excluded by the `index_count % 3 == 0` precondition) is
ignored. -/
def chunk3 : List Nat → List (Nat × Nat × Nat)
  | a :: b :: c :: rest => (a, b, c) :: chunk3 rest
  | _ => []

/-- Flatten triangles back to the index list. -/
def flat3 : List (Nat × Nat × Nat) → List Nat
  | [] => []
  | t :: ts => t.1 :: t.2.1 :: t.2.2 :: flat3 ts

/-- Modelled from the spec: `encodeIndexBuffer(indices, index_count,
vertex_count) -> bytes` (spec 4.2 contract), as the pure byte stream: the
format-version byte followed by the triangle records.  `vertex_count` is
only an encode-side precondition (every index `< vertex_count`) and does not
influence the emitted bytes. -/
def encodeIndexStream (indices : List Nat) : List Nat :=
  1 :: encTris initIState (chunk3 indices)

/-- Modelled from the spec: the C-shaped encoder entry point
`meshopt_encodeIndexBuffer(buffer, buffer_size, indices, index_count)`
(header lines 104-112): returns the encoded size on success and 0 when the
destination capacity cannot hold the encoding (spec 4.2 "Errors"). -/
def meshopt_encodeIndexBuffer (buffer_size : Nat) (indices : List Nat) : Nat :=
  if (encodeIndexStream indices).length ≤ buffer_size then (encodeIndexStream indices).length
  else 0

/-- Modelled from the spec: `encodeIndexBufferBound(index_count,
vertex_count)`: the miss-case worst case — operation code plus three
zig-zag varint deltas, each bounded by the varint length of `2 *
vertex_count` — per triangle, plus the one-byte header (spec 4.2 "Bound"). -/
def meshopt_encodeIndexBufferBound (index_count vertex_count : Nat) : Nat :=
  1 + (index_count / 3) * (1 + 3 * (varintEnc (2 * vertex_count)).length)

/-! #### Index decoder, as a prefix parser over the byte list -/

/-- A parser over the encoded byte stream: consume a prefix, return a value
and the unconsumed rest, or a decode error. -/
def IParse (α : Type) : Type := List Nat → Except DecodeError (α × List Nat)

/-- Sequencing of parsers. -/
def pbind (p : IParse α) (f : α → IParse β) : IParse β := fun s =>
  match p s with
  | .ok (x, rest) => f x rest
  | .error e => .error e

/-- Parser returning a value without consuming input. -/
def ppure (x : α) : IParse α := fun s => .ok (x, s)

/-- Failing parser. -/
def pfail (e : DecodeError) : IParse α := fun _ => .error e

/-- Read one byte; running out of bytes is a truncated (corrupt) stream. -/
def readByte : IParse Nat := fun s =>
  match s with
  | [] => .error .CorruptStream
  | b :: rest => .ok (b, rest)

/-- Read a varint; a truncated or never-terminating varint is corrupt
(spec 4.1). -/
def readVarint : IParse Nat := fun s =>
  match varintDec s with
  | some (v, rest) => .ok (v, rest)
  | none => .error .CorruptStream

/-- Read a vertex index encoded as a zig-zag varint delta against `last`; a
negative reconstructed index is corrupt. -/
def readDeltaIndex (last : Nat) : IParse Nat :=
  pbind readVarint fun u =>
    if 0 ≤ (last : Int) + unzigzag u then ppure ((last : Int) + unzigzag u).toNat
    else pfail .CorruptStream

/-- Read the third vertex of a hit triangle: FIFO back-reference, or marker
16 plus delta varint; anything else is an unrecognized code (spec 4.2
"Errors"). -/
def readThird (st : IState) : IParse Nat :=
  pbind readByte fun t =>
    if t < 16 then
      match st.verts[t]? with
      | some z => ppure z
      | none => pfail .CorruptStream
    else if t = 16 then readDeltaIndex st.last
    else pfail .CorruptStream

/-- Validate every reconstructed index against the declared `vertex_count`
before it is written (spec 4.2 "Preconditions": the decoder never trusts the
stream). -/
def checkTri (vertex_count : Nat) (t : Nat × Nat × Nat) : IParse (Nat × Nat × Nat) :=
  if t.1 < vertex_count ∧ t.2.1 < vertex_count ∧ t.2.2 < vertex_count then ppure t
  else pfail .CorruptStream

/-- Decode one triangle record: replay of `encTri` from the operation code
(spec 4.2 "Decoding replays the identical FIFO simulation"). -/
def decTri (vertex_count : Nat) (st : IState) : IParse (Nat × Nat × Nat) :=
  pbind readByte fun op =>
    if op < 48 then
      match st.edges[op / 3]? with
      | some e =>
        pbind (readThird st) fun z =>
          checkTri vertex_count (unrotTri (op % 3) (e.2.1, e.1, z))
      | none => pfail .CorruptStream
    else if op = 48 then
      pbind (readDeltaIndex st.last) fun a =>
        pbind (readDeltaIndex st.last) fun b =>
          pbind (readDeltaIndex st.last) fun c =>
            checkTri vertex_count (a, b, c)
    else pfail .CorruptStream

/-- Decode `n` triangle records, threading the FIFO state in lockstep with
the encoder. -/
def decTris (vertex_count : Nat) : Nat → IState → IParse (List (Nat × Nat × Nat))
  | 0, _ => ppure []
  | n + 1, st =>
    pbind (decTri vertex_count st) fun t =>
      pbind (decTris vertex_count n (stepState st t)) fun ts =>
        ppure (t :: ts)

/-- Modelled from the spec: `decodeIndexBuffer(bytes, index_count,
vertex_count) -> indices` (spec 4.2 contract; header lines 115-122 declare
the C entry point `meshopt_decodeIndexBuffer`).  Errors follow spec section
7: a missing header or an `index_count` the stream cannot produce is
`ShapeMismatch`, an unknown version is `InvalidFormatVersion`, everything
malformed inside the body is `CorruptStream`. -/
def meshopt_decodeIndexBuffer (index_count vertex_count : Nat) (stream : List Nat) :
    Except DecodeError (List Nat) :=
  if index_count % 3 ≠ 0 then .error .ShapeMismatch
  else
    match stream with
    | [] => .error .ShapeMismatch
    | ver :: body =>
      if ver ≠ 1 then .error .InvalidFormatVersion
      else
        match decTris vertex_count (index_count / 3) initIState body with
        | .ok (tris, rest) => if rest = [] then .ok (flat3 tris) else .error .ShapeMismatch
        | .error e => .error e

/-! ### Vertex buffer codec (spec section 4.3)

Choices fixed here where the specification leaves freedom:

* Stream layout: one format-version byte (`1`) followed by the block data.
* Blocks of 16 records; the last block simply holds the remaining
  `vertex_count % 16` records ("padded conceptually but not materialized").
* Within a block the `vertex_size` byte lanes are emitted in offset order;
  a lane is one control byte holding the bit width `w` (0-8; larger values
  are reserved and rejected on decode) followed by the residuals bit-packed
  MSB-first at width `w`, the final partial byte zero-padded.
* Byte deltas are taken modulo 256 (the C codec works on `unsigned char`),
  then mapped through the 8-bit zig-zag so that small deltas of either sign
  give small residuals; the first record of the buffer deltas against zero.
* The bit width is the smallest `w` such that all residuals of the
  block/lane fit in `w` bits (spec section 9).
-/

/-- 8-bit zig-zag map: a byte delta `d` (mod 256), read as a signed 8-bit
value, mapped to `2d` for nonnegative and `-2d-1` for negative values. -/
def zigzag8 (d : Nat) : Nat :=
  if d % 256 < 128 then 2 * (d % 256) else 511 - 2 * (d % 256)

/-- Inverse of `zigzag8` on `[0, 256)`. -/
def unzigzag8 (u : Nat) : Nat :=
  if u % 2 = 0 then u / 2 else 256 - (u + 1) / 2

/-- The `w` bits of `v`, most significant first. -/
def toBits : Nat → Nat → List Bool
  | 0, _ => []
  | w + 1, v => toBits w (v / 2) ++ [v % 2 == 1]

/-- Value of a bit string, most significant bit first. -/
def bitsToNat (bs : List Bool) : Nat :=
  bs.foldl (fun a b => 2 * a + (if b then 1 else 0)) 0

/-- Zero-pad a bit string on the right to a full byte. -/
def padTo8 (bs : List Bool) : List Bool :=
  bs ++ List.replicate (8 - bs.length) false

/-- Fuel-driven worker for `bitsToBytes`; the fuel only forces structural
recursion and is irrelevant once it is at least the bit count. -/
def bitsToBytesF : Nat → List Bool → List Nat
  | _, [] => []
  | 0, _ => []
  | f + 1, bs => bitsToNat (padTo8 (bs.take 8)) :: bitsToBytesF f (bs.drop 8)

/-- Pack a bit string into bytes, MSB-first, zero-padding the final byte. -/
def bitsToBytes (bs : List Bool) : List Nat :=
  bitsToBytesF bs.length bs

/-- The bit string of a byte sequence, MSB-first within each byte. -/
def bytesToBits (bs : List Nat) : List Bool :=
  (bs.map (fun b => toBits 8 b)).flatten

/-- Read `count` fields of `w` bits each from a bit string. -/
def unpackBits (w : Nat) : Nat → List Bool → List Nat
  | 0, _ => []
  | c + 1, bs => bitsToNat (bs.take w) :: unpackBits w c (bs.drop w)

/-- Bit-pack a list of `w`-bit values into bytes. -/
def packBits (w : Nat) (vals : List Nat) : List Nat :=
  bitsToBytes ((vals.map (toBits w)).flatten)

/-- Smallest bit width (0-8) that covers a residual value below 256
(spec section 9: "smallest `w` such that all residuals fit"). -/
def bitWidth8 (m : Nat) : Nat :=
  if m = 0 then 0
  else if m < 2 then 1
  else if m < 4 then 2
  else if m < 8 then 3
  else if m < 16 then 4
  else if m < 32 then 5
  else if m < 64 then 6
  else if m < 128 then 7
  else 8

/-- Width selection for a block/lane: smallest width covering the largest
zig-zag residual (spec 4.3 step 3 and section 9). -/
def widthFor (vals : List Nat) : Nat :=
  bitWidth8 (vals.foldr max 0)

/-- Zig-zag residuals of a byte column against its previous byte: each byte
deltas against the previous record's byte in the same lane (spec 4.3
step 2); deltas are taken modulo 256. -/
def residuals (p : Nat) : List Nat → List Nat
  | [] => []
  | c :: cs => zigzag8 ((c + 256 - p) % 256) :: residuals c cs

/-- Reverse of `residuals`: un-zig-zag each residual and accumulate against
the running previous byte, modulo 256 (spec 4.3 step 4). -/
def reconstructLane (p : Nat) : List Nat → List Nat
  | [] => []
  | u :: us => ((p + unzigzag8 u) % 256) :: reconstructLane ((p + unzigzag8 u) % 256) us

/-- One encoded block/lane: control byte with the chosen width, then the
bit-packed residuals (a constant lane costs one control byte). -/
def encVLane (p : Nat) (col : List Nat) : List Nat :=
  widthFor (residuals p col) :: packBits (widthFor (residuals p col)) (residuals p col)

/-- Byte lane `j` of a block: the bytes at offset `j` of each record, modulo
256 (records are opaque byte strings, spec 4.3). -/
def columnsOf (vs : Nat) (blk : List (List Nat)) : List (List Nat) :=
  (List.range vs).map (fun j => blk.map (fun r => (r.getD j 0) % 256))

/-- The per-lane previous bytes taken from the record preceding the block
(all zero before the first block). -/
def prevBytesOf (vs : Nat) (prev : List Nat) : List Nat :=
  (List.range vs).map (fun j => (prev.getD j 0) % 256)

/-- Encode the lanes of one block: previous bytes and columns in lockstep. -/
def encLanes : List Nat → List (List Nat) → List Nat
  | p :: ps, c :: cs => encVLane p c ++ encLanes ps cs
  | _, _ => []

/-- Encode one block of at most 16 records against the previous record. -/
def encVBlock (vs : Nat) (prev : List Nat) (blk : List (List Nat)) : List Nat :=
  encLanes (prevBytesOf vs prev) (columnsOf vs blk)

/-- Fuel-driven worker for `chunk16`. -/
def chunk16F {α : Type} : Nat → List α → List (List α)
  | _, [] => []
  | 0, _ => []
  | f + 1, l => l.take 16 :: chunk16F f (l.drop 16)

/-- Partition records into blocks of 16 (last block shorter, spec 4.3
step 1). -/
def chunk16 {α : Type} (l : List α) : List (List α) :=
  chunk16F l.length l

/-- Encode a list of blocks, threading the previous record. -/
def encVBlocksL (vs : Nat) : List Nat → List (List (List Nat)) → List Nat
  | _, [] => []
  | prev, blk :: bls => encVBlock vs prev blk ++ encVBlocksL vs (blk.getLastD prev) bls

/-- Cut the flat byte buffer into `vertex_count` records of `vertex_size`
bytes. -/
def chunkRecords : Nat → Nat → List Nat → List (List Nat)
  | 0, _, _ => []
  | n + 1, vs, v => v.take vs :: chunkRecords n vs (v.drop vs)

/-- Modelled from the spec: `encodeVertexBuffer(vertices, vertex_count,
vertex_size) -> bytes` (spec 4.3 contract; header lines 124-131 declare the
C entry point `meshopt_encodeVertexBuffer`), as the pure byte stream. -/
def encodeVertexStream (vertex_count vertex_size : Nat) (v : List Nat) : List Nat :=
  1 :: encVBlocksL vertex_size (List.replicate vertex_size 0)
    (chunk16 (chunkRecords vertex_count vertex_size v))

/-- Modelled from the spec: the C-shaped encoder entry point returning the
encoded size, or 0 when the destination capacity is insufficient (spec 4.3
"Errors"). -/
def meshopt_encodeVertexBuffer (buffer_size vertex_count vertex_size : Nat)
    (v : List Nat) : Nat :=
  if (encodeVertexStream vertex_count vertex_size v).length ≤ buffer_size then
    (encodeVertexStream vertex_count vertex_size v).length
  else 0

/-- Modelled from the spec: `encodeVertexBufferBound(vertex_count,
vertex_size)`: one control byte plus 16 full bytes per lane per block, plus
the one-byte header (spec 4.3 "Bound"). -/
def meshopt_encodeVertexBufferBound (vertex_count vertex_size : Nat) : Nat :=
  1 + ((vertex_count + 15) / 16) * (17 * vertex_size)

/-- Read the `(count * w + 7) / 8` packed bytes of a lane and unpack the
`count` residuals; a shorter stream is truncated, hence corrupt. -/
def readPacked (w count : Nat) : IParse (List Nat) := fun s =>
  if s.length < (count * w + 7) / 8 then .error .CorruptStream
  else .ok (unpackBits w count (bytesToBits (s.take ((count * w + 7) / 8))),
    s.drop ((count * w + 7) / 8))

/-- Decode one block/lane: control byte, width check (reserved values are an
inconsistent block header, spec 4.3 "Errors"), residuals, reconstruction. -/
def decVLane (count p : Nat) : IParse (List Nat) :=
  pbind readByte fun w =>
    if w ≤ 8 then
      pbind (readPacked w count) fun res => ppure (reconstructLane p res)
    else pfail .CorruptStream

/-- Decode all lanes of a block, one per previous-record byte. -/
def decVLanes (count : Nat) : List Nat → IParse (List (List Nat))
  | [] => ppure []
  | p :: ps =>
    pbind (decVLane count p) fun col =>
      pbind (decVLanes count ps) fun cols => ppure (col :: cols)

/-- Reassemble the records of a block from its decoded byte columns. -/
def recsFromCols (count : Nat) (cols : List (List Nat)) : List (List Nat) :=
  (List.range count).map (fun i => cols.map (fun col => col.getD i 0))

/-- Decode one block of `count` records. -/
def decVBlock (vs count : Nat) (prev : List Nat) : IParse (List (List Nat)) :=
  pbind (decVLanes count (prevBytesOf vs prev)) fun cols =>
    ppure (recsFromCols count cols)

/-- Decode `nb` blocks covering `rem` remaining records, threading the
previous record in lockstep with the encoder. -/
def decVBlocks (vs : Nat) : Nat → Nat → List Nat → IParse (List (List Nat))
  | 0, _, _ => ppure []
  | nb + 1, rem, prev =>
    pbind (decVBlock vs (min 16 rem) prev) fun recs =>
      pbind (decVBlocks vs nb (rem - min 16 rem) (recs.getLastD prev)) fun rest =>
        ppure (recs ++ rest)

/-- Modelled from the spec: `decodeVertexBuffer(bytes, vertex_count,
vertex_size) -> vertices` (spec 4.3 contract; header lines 134-141 declare
the C entry point `meshopt_decodeVertexBuffer`).  Error taxonomy as in the
index decoder. -/
def meshopt_decodeVertexBuffer (vertex_count vertex_size : Nat) (stream : List Nat) :
    Except DecodeError (List Nat) :=
  match stream with
  | [] => .error .ShapeMismatch
  | ver :: body =>
    if ver ≠ 1 then .error .InvalidFormatVersion
    else
      match decVBlocks vertex_size ((vertex_count + 15) / 16) vertex_count
          (List.replicate vertex_size 0) body with
      | .ok (recs, rest) => if rest = [] then .ok recs.flatten else .error .ShapeMismatch
      | .error e => .error e

/-- A parser is stable when its success depends only on the consumed prefix:
whatever follows that prefix is returned untouched.  This is the formal
counterpart of sequential left-to-right decoding with no lookahead. -/
def PStable {α : Type} (p : IParse α) : Prop :=
  ∀ s x rest, p s = .ok (x, rest) → ∃ c, s = c ++ rest ∧ ∀ r2, p (c ++ r2) = .ok (x, r2)

/-- A triangle is valid for a vertex range when its three indices lie in
`[0, vertex_count)` (spec section 3). -/
def validTri (vertex_count : Nat) (t : Nat × Nat × Nat) : Prop :=
  t.1 < vertex_count ∧ t.2.1 < vertex_count ∧ t.2.2 < vertex_count

/-- Structural invariant of the shared codec state: both FIFOs respect their
capacity of 16. -/
def stInv (st : IState) : Prop :=
  st.edges.length ≤ 16 ∧ st.verts.length ≤ 16

/-! ### C++ index adapter templates (header lines 285-330, 392-398)

These are defined inline in `src/meshoptimizer.h`; the underlying C codec
function is abstracted as a parameter `f` since its body is not part of the
source tree.  `T` values of byte size `sz` are modelled as naturals below
`2^(8*sz)`. -/

/-- `meshopt_IndexAdapter<T, false>` constructor copy (header lines
295-307): `data[i] = input[i]`, the C integral conversion from `T` to
`unsigned int`, i.e. reduction modulo `2^32`. -/
def meshopt_IndexAdapter_widen (input : List Nat) : List Nat :=
  input.map (fun x => x % 2 ^ 32)

/-- `meshopt_IndexAdapter<T, false>` destructor write-back (header lines
309-318): `result[i] = T(data[i])`, the conversion back to `T` of byte size
`sz`, i.e. reduction modulo `2^(8*sz)`. -/
def meshopt_IndexAdapter_narrow (sz : Nat) (data : List Nat) : List Nat :=
  data.map (fun x => x % 2 ^ (8 * sz))

/-- `meshopt_IndexAdapter<T, true>` (header lines 321-330): when
`sizeof(T) == sizeof(unsigned int)` the adapter reinterprets the same
buffer without copying, so the value sequence is unchanged. -/
def meshopt_IndexAdapter_zero (input : List Nat) : List Nat := input

/-- The templated `meshopt_encodeIndexBuffer<T>` wrapper (header lines
392-398): build the input adapter (`meshopt_IndexAdapter<T> in(0, indices,
index_count)`) and call the underlying C function on `in.data`.  `sz` is
`sizeof(T)`; the template dispatches on `ZeroCopy = (sizeof(T) ==
sizeof(unsigned int))`. -/
def meshopt_encodeIndexBufferT (sz : Nat) (f : List Nat → Nat) (indices : List Nat) : Nat :=
  if sz = 4 then f (meshopt_IndexAdapter_zero indices)
  else f (meshopt_IndexAdapter_widen indices)

/-- `meshopt_quantizeHalf` (header lines 485-506), viewed as a function on
the 32-bit bit pattern `ui` of the input float.  The C arithmetic is on
`int`; the arithmetic right shift `>> 13` is modelled as flooring division
by `2^13` (`Int.fdiv`), and the final `(unsigned short)` cast as reduction
modulo `2^16`.  The sign-or is computed on naturals, which is faithful
because the selected `h` is nonnegative on every path that reaches it. -/
def meshopt_quantizeHalf (ui : Nat) : Nat :=
  let s := (ui >>> 16) &&& 0x8000
  let em := ui &&& 0x7fffffff
  let h0 : Int := ((em : Int) - 112 * 2 ^ 23 + 2 ^ 12).fdiv (2 ^ 13)
  let h1 : Int := if em < 113 * 2 ^ 23 then 0 else h0
  let h2 : Int := if 143 * 2 ^ 23 ≤ em then 0x7c00 else h1
  let h3 : Int := if 255 * 2 ^ 23 < em then 0x7e00 else h2
  (s ||| h3.toNat) % 65536

theorem varintEncF_fuel_irrel : ∀ f g v, v ≤ f → v ≤ g → varintEncF f v = varintEncF g v := by
  intro f
  induction f with
  | zero =>
    intro g v hf _
    interval_cases v
    cases g with
    | zero => rfl
    | succ g => simp [varintEncF]
  | succ f ih =>
    intro g v hf hg
    cases g with
    | zero =>
      interval_cases v
      simp [varintEncF]
    | succ g =>
      by_cases hv : v < 128
      · simp [varintEncF, hv]
      · simp only [varintEncF, hv, if_false]
        have hd : v / 128 ≤ f := by omega
        have hd2 : v / 128 ≤ g := by omega
        rw [ih g (v / 128) hd hd2]

/-- The recurrence `varintEnc` satisfies, independent of fuel. -/
theorem varintEnc_eq (v : Nat) :
    varintEnc v = if v < 128 then [v] else (128 + v % 128) :: varintEnc (v / 128) := by
  by_cases hv : v < 128
  · cases v with
    | zero => simp [varintEnc, varintEncF]
    | succ n => simp [varintEnc, varintEncF, hv]
  · have hp : 0 < v := by omega
    obtain ⟨n, rfl⟩ : ∃ n, v = n + 1 := ⟨v - 1, by omega⟩
    simp only [varintEnc, varintEncF, hv, if_false]
    congr 1
    exact varintEncF_fuel_irrel n ((n + 1) / 128) ((n + 1) / 128) (by omega) (Nat.le_refl _)

/-- Round trip of the varint primitives: decoding an encoded value returns
the value and leaves the rest of the stream untouched. -/
theorem varintDec_enc (v : Nat) (rest : List Nat) :
    varintDec (varintEnc v ++ rest) = some (v, rest) := by
  induction v using Nat.strong_induction_on with
  | _ v ih =>
    rw [varintEnc_eq]
    by_cases hv : v < 128
    · simp [varintDec, hv]
    · have hlt : v / 128 < v := Nat.div_lt_self (by omega) (by omega)
      simp only [hv, if_false, List.cons_append, varintDec]
      have hb : ¬(128 + v % 128 < 128) := by omega
      simp only [hb, if_false, ih (v / 128) hlt]
      have : (128 + v % 128) % 128 = v % 128 := by omega
      rw [this]
      have : v % 128 + 128 * (v / 128) = v := by omega
      rw [this]

theorem varintEnc_length_mono : ∀ u v, u ≤ v → (varintEnc u).length ≤ (varintEnc v).length := by
  intro u
  induction u using Nat.strong_induction_on with
  | _ u ih =>
    intro v huv
    rw [varintEnc_eq u, varintEnc_eq v]
    by_cases hu : u < 128
    · by_cases hv : v < 128
      · simp [hu, hv]
      · simp only [hu, hv, if_true, if_false, List.length_cons, List.length_nil]
        omega
    · have hv : ¬v < 128 := by omega
      simp only [hu, hv, if_false, List.length_cons, Nat.add_le_add_iff_right]
      exact ih (u / 128) (Nat.div_lt_self (by omega) (by omega)) (v / 128)
        (Nat.div_le_div_right huv)

theorem unzigzag_zigzag (d : Int) : unzigzag (zigzag d) = d := by
  unfold zigzag unzigzag
  by_cases hd : 0 ≤ d
  · have h2 : (2 * d).toNat = 2 * d.toNat := by omega
    simp only [hd, if_true, h2]
    have : 2 * d.toNat % 2 = 0 := by omega
    simp only [this, if_true]
    omega
  · have h2 : (-2 * d - 1).toNat % 2 = 1 := by omega
    simp only [hd, if_false, h2]
    norm_num
    omega

theorem zigzag_le (d : Int) (m : Nat) (h1 : -(m : Int) ≤ d) (h2 : d ≤ (m : Int)) :
    zigzag d ≤ 2 * m := by
  unfold zigzag
  by_cases hd : 0 ≤ d
  · simp only [hd, if_true]; omega
  · simp only [hd, if_false]; omega

/-! ### Index codec: round-trip lemmas -/

theorem pbind_ok {α β : Type} {p : IParse α} {f : α → IParse β} {s : List Nat} {x : α}
    {r : List Nat} (h : p s = .ok (x, r)) : pbind p f s = f x r := by
  unfold pbind
  rw [h]

theorem findSlot_lt {α : Type} {p : α → Bool} : ∀ {l : List α} {s : Nat},
    findSlot p l = some s → s < l.length := by
  intro l
  induction l with
  | nil => intro s h; simp [findSlot] at h
  | cons x xs ih =>
    intro s h
    rw [findSlot] at h
    by_cases hp : p x
    · rw [if_pos hp] at h
      injection h with h
      simp only [List.length_cons]
      omega
    · rw [if_neg hp] at h
      cases hfs : findSlot p xs with
      | none => rw [hfs] at h; simp at h
      | some s0 =>
        rw [hfs] at h
        injection h with h
        have := ih hfs
        simp only [List.length_cons]
        omega

theorem findSlot_get {α : Type} {p : α → Bool} : ∀ {l : List α} {s : Nat},
    findSlot p l = some s → ∃ x, l[s]? = some x ∧ p x = true := by
  intro l
  induction l with
  | nil => intro s h; simp [findSlot] at h
  | cons x xs ih =>
    intro s h
    rw [findSlot] at h
    by_cases hp : p x
    · rw [if_pos hp] at h
      injection h with h
      subst h
      exact ⟨x, by simp, hp⟩
    · rw [if_neg hp] at h
      cases hfs : findSlot p xs with
      | none => rw [hfs] at h; simp at h
      | some s0 =>
        rw [hfs] at h
        injection h with h
        subst h
        obtain ⟨y, hy, hpy⟩ := ih hfs
        refine ⟨y, ?_, hpy⟩
        simpa using hy

theorem stepState_inv {st : IState} (h : stInv st) (t : Nat × Nat × Nat) :
    stInv (stepState st t) := by
  obtain ⟨he, hv⟩ := h
  constructor
  · simp [stepState, pushEdge, List.length_take]
  · simp only [stepState]
    have step : ∀ (v : Nat) (l : List Nat), l.length ≤ 16 → (pushVert v l).length ≤ 16 := by
      intro v l hl
      unfold pushVert
      by_cases hm : v ∈ l
      · simp [hm, hl]
      · simp [hm, List.length_take]
    exact step _ _ (step _ _ (step _ _ hv))

theorem readDeltaIndex_enc (last z : Nat) (rest : List Nat) :
    readDeltaIndex last (varintEnc (zigzag ((z : Int) - (last : Int))) ++ rest) = .ok (z, rest) := by
  unfold readDeltaIndex
  have hv : readVarint (varintEnc (zigzag ((z : Int) - (last : Int))) ++ rest) =
      .ok (zigzag ((z : Int) - (last : Int)), rest) := by
    unfold readVarint
    rw [varintDec_enc]
  rw [pbind_ok hv, unzigzag_zigzag]
  have h0 : (last : Int) + ((z : Int) - (last : Int)) = (z : Int) := by ring
  rw [h0]
  have h1 : (0 : Int) ≤ (z : Int) := Int.ofNat_nonneg z
  simp [h1, ppure]

theorem readThird_encThird {st : IState} (hv : st.verts.length ≤ 16) (z : Nat) (rest : List Nat) :
    readThird st (encThird st z ++ rest) = .ok (z, rest) := by
  unfold encThird
  cases hfs : findSlot (fun v => v == z) st.verts with
  | some v =>
    have hlt : v < st.verts.length := findSlot_lt hfs
    obtain ⟨y, hy, hpy⟩ := findSlot_get hfs
    have hyz : y = z := by simpa using hpy
    subst hyz
    unfold readThird
    rw [List.cons_append, List.nil_append]
    rw [pbind_ok (show readByte (v :: rest) = .ok (v, rest) from rfl)]
    have hv16 : v < 16 := by omega
    simp [hv16, hy, ppure]
  | none =>
    unfold readThird
    rw [List.cons_append]
    rw [pbind_ok (show readByte
      (16 :: (varintEnc (zigzag ((z : Int) - (st.last : Int))) ++ rest)) =
      .ok (16, varintEnc (zigzag ((z : Int) - (st.last : Int))) ++ rest) from rfl)]
    norm_num
    exact readDeltaIndex_enc st.last z rest

theorem checkTri_valid {vc : Nat} {t : Nat × Nat × Nat} (h : validTri vc t) (s : List Nat) :
    checkTri vc t s = .ok (t, s) := by
  obtain ⟨h1, h2, h3⟩ := h
  simp [checkTri, h1, h2, h3, ppure]

theorem decTri_encTri {vc : Nat} {st : IState} {t : Nat × Nat × Nat}
    (hinv : stInv st) (hval : validTri vc t) (rest : List Nat) :
    decTri vc st (encTri st t ++ rest) = .ok (t, rest) := by
  obtain ⟨hedg, hvrt⟩ := hinv
  unfold encTri
  cases hFH : findHit st.edges t with
  | some rs =>
    obtain ⟨r, s⟩ := rs
    have hcase : (r = 0 ∧ findSlot (edgeMatch t.1 t.2.1) st.edges = some s) ∨
        (r = 1 ∧ findSlot (edgeMatch t.2.1 t.2.2) st.edges = some s) ∨
        (r = 2 ∧ findSlot (edgeMatch t.2.2 t.1) st.edges = some s) := by
      unfold findHit at hFH
      cases h0 : findSlot (edgeMatch t.1 t.2.1) st.edges with
      | some s0 =>
        rw [h0] at hFH
        simp only [Option.some_inj, Prod.mk.injEq] at hFH
        exact Or.inl ⟨hFH.1.symm, congrArg some hFH.2⟩
      | none =>
        rw [h0] at hFH
        cases h1 : findSlot (edgeMatch t.2.1 t.2.2) st.edges with
        | some s1 =>
          rw [h1] at hFH
          simp only [Option.some_inj, Prod.mk.injEq] at hFH
          exact Or.inr (Or.inl ⟨hFH.1.symm, congrArg some hFH.2⟩)
        | none =>
          rw [h1] at hFH
          cases h2 : findSlot (edgeMatch t.2.2 t.1) st.edges with
          | some s2 =>
            rw [h2] at hFH
            simp only [Option.some_inj, Prod.mk.injEq] at hFH
            exact Or.inr (Or.inr ⟨hFH.1.symm, congrArg some hFH.2⟩)
          | none => rw [h2] at hFH; exact absurd hFH (by simp)
    have main : ∀ (x y z : Nat), findSlot (edgeMatch x y) st.edges = some s →
        unrotTri r (x, y, z) = t → r < 3 →
        decTri vc st (((3 * s + r) :: encThird st z) ++ rest) = .ok (t, rest) := by
      intro x y z hfs hrot hr3
      have hslt : s < st.edges.length := findSlot_lt hfs
      obtain ⟨e, hge, hpe⟩ := findSlot_get hfs
      have he1 : e.1 = y ∧ e.2.1 = x := by
        unfold edgeMatch at hpe
        simp only [Bool.and_eq_true, beq_iff_eq] at hpe
        exact hpe
      unfold decTri
      rw [List.cons_append]
      rw [pbind_ok (show readByte ((3 * s + r) :: (encThird st z ++ rest)) =
        .ok (3 * s + r, encThird st z ++ rest) from rfl)]
      have hop : 3 * s + r < 48 := by omega
      have hdiv : (3 * s + r) / 3 = s := by omega
      have hmod : (3 * s + r) % 3 = r := by omega
      simp only [hop, if_true, hdiv, hmod, hge, he1.1, he1.2]
      rw [pbind_ok (readThird_encThird hvrt z rest)]
      show checkTri vc (unrotTri r (x, y, z)) rest = _
      rw [hrot]
      exact checkTri_valid hval rest
    rcases hcase with ⟨rfl, hfs⟩ | ⟨rfl, hfs⟩ | ⟨rfl, hfs⟩
    · exact main t.1 t.2.1 t.2.2 hfs rfl (by omega)
    · exact main t.2.1 t.2.2 t.1 hfs rfl (by omega)
    · exact main t.2.2 t.1 t.2.1 hfs rfl (by omega)
  | none =>
    unfold decTri
    rw [List.cons_append]
    rw [pbind_ok (show readByte (48 :: ((varintEnc (zigzag ((t.1 : Int) - (st.last : Int))) ++
      varintEnc (zigzag ((t.2.1 : Int) - (st.last : Int))) ++
      varintEnc (zigzag ((t.2.2 : Int) - (st.last : Int)))) ++ rest)) =
      .ok (48, (varintEnc (zigzag ((t.1 : Int) - (st.last : Int))) ++
      varintEnc (zigzag ((t.2.1 : Int) - (st.last : Int))) ++
      varintEnc (zigzag ((t.2.2 : Int) - (st.last : Int)))) ++ rest) from rfl)]
    norm_num
    rw [pbind_ok (readDeltaIndex_enc st.last t.1 _)]
    rw [pbind_ok (readDeltaIndex_enc st.last t.2.1 _)]
    rw [pbind_ok (readDeltaIndex_enc st.last t.2.2 _)]
    exact checkTri_valid hval rest

theorem decTris_encTris {vc : Nat} : ∀ (ts : List (Nat × Nat × Nat)) (st : IState),
    stInv st → (∀ t ∈ ts, validTri vc t) → ∀ rest,
    decTris vc ts.length st (encTris st ts ++ rest) = .ok (ts, rest) := by
  intro ts
  induction ts with
  | nil => intro st _ _ rest; simp [decTris, encTris, ppure]
  | cons t ts ih =>
    intro st hinv hval rest
    simp only [List.length_cons, decTris, encTris, List.append_assoc]
    rw [pbind_ok (decTri_encTri hinv (hval t (List.mem_cons_self t ts)) _)]
    rw [pbind_ok (ih (stepState st t) (stepState_inv hinv t)
      (fun u hu => hval u (List.mem_cons_of_mem t hu)) rest)]
    rfl

theorem flat3_chunk3 : ∀ (l : List Nat), l.length % 3 = 0 → flat3 (chunk3 l) = l := by
  intro l
  induction l using chunk3.induct with
  | case1 a b c rest ih =>
    intro h
    simp only [List.length_cons] at h
    simp only [chunk3, flat3]
    rw [ih (by omega)]
  | case2 l h1 =>
    intro h
    match l, h1 with
    | [], _ => rfl
    | [a], h1 => simp at h
    | [a, b], h1 => simp at h
    | a :: b :: c :: r, h1 => exact absurd rfl (h1 a b c r)

theorem chunk3_length : ∀ (l : List Nat), (chunk3 l).length = l.length / 3 := by
  intro l
  induction l using chunk3.induct with
  | case1 a b c rest ih =>
    simp only [chunk3, List.length_cons, ih]
    omega
  | case2 l h1 =>
    match l, h1 with
    | [], _ => simp [chunk3]
    | [a], h1 => simp [chunk3]
    | [a, b], h1 => simp [chunk3]
    | a :: b :: c :: r, h1 => exact absurd rfl (h1 a b c r)

theorem chunk3_valid {vc : Nat} : ∀ {l : List Nat}, (∀ x ∈ l, x < vc) →
    ∀ t ∈ chunk3 l, validTri vc t := by
  intro l
  induction l using chunk3.induct with
  | case1 a b c rest ih =>
    intro h t ht
    simp only [chunk3, List.mem_cons] at ht
    rcases ht with rfl | ht
    · exact ⟨h a (by simp), h b (by simp), h c (by simp)⟩
    · exact ih (fun x hx => h x (by simp [hx])) t ht
  | case2 l h1 =>
    intro h t ht
    match l, h1 with
    | [], _ => simp [chunk3] at ht
    | [a], h1 => simp [chunk3] at ht
    | [a, b], h1 => simp [chunk3] at ht
    | a :: b :: c :: r, h1 => exact absurd rfl (h1 a b c r)

/-- Core round-trip property of the index codec: decoding the encoded stream
of a valid index buffer reproduces the buffer exactly. -/
theorem indexRoundtrip {vc : Nat} {l : List Nat} (hlen : l.length % 3 = 0)
    (hval : ∀ x ∈ l, x < vc) :
    meshopt_decodeIndexBuffer l.length vc (encodeIndexStream l) = .ok l := by
  unfold meshopt_decodeIndexBuffer encodeIndexStream
  simp only [hlen, ne_eq, not_true_eq_false, if_false]
  have hlen3 : l.length / 3 = (chunk3 l).length := (chunk3_length l).symm
  rw [hlen3]
  have hrt := @decTris_encTris vc (chunk3 l) initIState
    (by constructor <;> simp [initIState]) (chunk3_valid hval) []
  rw [List.append_nil] at hrt
  rw [hrt]
  simp [flat3_chunk3 l hlen]

/-! ### Index decoder: soundness (every emitted index is validated) -/

theorem pbind_ok_elim {α β : Type} {p : IParse α} {f : α → IParse β} {s : List Nat}
    {y : β × List Nat} (h : pbind p f s = .ok y) :
    ∃ x r, p s = .ok (x, r) ∧ f x r = .ok y := by
  unfold pbind at h
  cases hp : p s with
  | ok xr =>
    obtain ⟨x, r⟩ := xr
    rw [hp] at h
    exact ⟨x, r, rfl, h⟩
  | error e =>
    rw [hp] at h
    exact absurd h (by simp)

theorem pbind_err_elim {α β : Type} {p : IParse α} {f : α → IParse β} {s : List Nat}
    {e : DecodeError} (h : pbind p f s = .error e) :
    p s = .error e ∨ ∃ x r, p s = .ok (x, r) ∧ f x r = .error e := by
  unfold pbind at h
  cases hp : p s with
  | ok xr =>
    obtain ⟨x, r⟩ := xr
    rw [hp] at h
    exact Or.inr ⟨x, r, rfl, h⟩
  | error e0 =>
    rw [hp] at h
    injection h with h
    subst h
    exact Or.inl rfl

theorem ppure_ok_elim {α : Type} {x y : α} {s : List Nat} {rest : List Nat}
    (h : ppure x s = .ok (y, rest)) : y = x ∧ rest = s := by
  unfold ppure at h
  injection h with h
  exact ⟨congrArg Prod.fst h.symm, congrArg Prod.snd h.symm⟩

theorem checkTri_sound {vc : Nat} {t : Nat × Nat × Nat} {s : List Nat} {y : (Nat × Nat × Nat) × List Nat}
    (h : checkTri vc t s = .ok y) : validTri vc y.1 ∧ y.1 = t ∧ y.2 = s := by
  unfold checkTri at h
  split at h
  · next hv =>
    unfold ppure at h
    injection h with h
    subst h
    exact ⟨hv, rfl, rfl⟩
  · exact absurd h (by simp [pfail])

theorem decTri_sound {vc : Nat} {st : IState} {s : List Nat} {y : (Nat × Nat × Nat) × List Nat}
    (h : decTri vc st s = .ok y) : validTri vc y.1 := by
  unfold decTri at h
  obtain ⟨op, s1, _, h⟩ := pbind_ok_elim h
  by_cases hop : op < 48
  · rw [if_pos hop] at h
    cases hge : st.edges[op / 3]? with
    | some e =>
      rw [hge] at h
      obtain ⟨z, s2, _, h⟩ := pbind_ok_elim h
      exact (checkTri_sound h).1
    | none =>
      rw [hge] at h
      simp [pfail] at h
  · rw [if_neg hop] at h
    by_cases hop2 : op = 48
    · rw [if_pos hop2] at h
      obtain ⟨a, s2, _, h⟩ := pbind_ok_elim h
      obtain ⟨b, s3, _, h⟩ := pbind_ok_elim h
      obtain ⟨c, s4, _, h⟩ := pbind_ok_elim h
      exact (checkTri_sound h).1
    · rw [if_neg hop2] at h
      simp [pfail] at h

theorem decTris_sound {vc : Nat} : ∀ {n : Nat} {st : IState} {s : List Nat}
    {y : List (Nat × Nat × Nat) × List Nat},
    decTris vc n st s = .ok y → ∀ t ∈ y.1, validTri vc t := by
  intro n
  induction n with
  | zero =>
    intro st s y h t ht
    obtain ⟨hy, _⟩ := ppure_ok_elim h
    rw [hy] at ht
    simp at ht
  | succ n ih =>
    intro st s y h u hu
    unfold decTris at h
    obtain ⟨t, s1, ht, h⟩ := pbind_ok_elim h
    obtain ⟨ts, s2, hts, h⟩ := pbind_ok_elim h
    obtain ⟨hy, _⟩ := ppure_ok_elim h
    rw [hy] at hu
    rcases List.mem_cons.mp hu with rfl | hu
    · exact decTri_sound ht
    · exact ih hts u hu

theorem flat3_lt {vc : Nat} : ∀ {ts : List (Nat × Nat × Nat)},
    (∀ t ∈ ts, validTri vc t) → ∀ x ∈ flat3 ts, x < vc := by
  intro ts
  induction ts with
  | nil => intro _ x hx; simp [flat3] at hx
  | cons t ts ih =>
    intro h x hx
    have hv := h t (List.mem_cons_self t ts)
    simp only [flat3, List.mem_cons] at hx
    rcases hx with rfl | rfl | rfl | hx
    · exact hv.1
    · exact hv.2.1
    · exact hv.2.2
    · exact ih (fun u hu => h u (List.mem_cons_of_mem t hu)) x hx

/-- Decoder soundness: whenever the index decoder succeeds, every index it
wrote is below the declared `vertex_count`; no out-of-range index ever
reaches the destination. -/
theorem decodeIndex_sound {ic vc : Nat} {stream out : List Nat}
    (h : meshopt_decodeIndexBuffer ic vc stream = .ok out) : ∀ x ∈ out, x < vc := by
  unfold meshopt_decodeIndexBuffer at h
  split at h
  · exact absurd h (by simp)
  · split at h
    · exact absurd h (by simp)
    · next ver body =>
      split at h
      · exact absurd h (by simp)
      · split at h
        · next tris rest hd =>
          split at h
          · injection h with h
            subst h
            exact flat3_lt (decTris_sound hd)
          · exact absurd h (by simp)
        · exact absurd h (by simp)

/-! ### Index decoder: error classification and prefix stability -/

theorem readByte_err {s : List Nat} {e : DecodeError} (h : readByte s = .error e) :
    e = .CorruptStream := by
  unfold readByte at h
  cases s with
  | nil => injection h with h; exact h.symm
  | cons b r => exact absurd h (by simp)

theorem readVarint_err {s : List Nat} {e : DecodeError} (h : readVarint s = .error e) :
    e = .CorruptStream := by
  unfold readVarint at h
  cases hv : varintDec s with
  | some vr => rw [hv] at h; obtain ⟨v, r⟩ := vr; exact absurd h (by simp)
  | none => rw [hv] at h; injection h with h; exact h.symm

theorem readDeltaIndex_err {last : Nat} {s : List Nat} {e : DecodeError}
    (h : readDeltaIndex last s = .error e) : e = .CorruptStream := by
  unfold readDeltaIndex at h
  rcases pbind_err_elim h with h | ⟨u, r, _, h⟩
  · exact readVarint_err h
  · split at h
    · exact absurd h (by simp [ppure])
    · injection h with h; exact h.symm

theorem readThird_err {st : IState} {s : List Nat} {e : DecodeError}
    (h : readThird st s = .error e) : e = .CorruptStream := by
  unfold readThird at h
  rcases pbind_err_elim h with h | ⟨t, r, _, h⟩
  · exact readByte_err h
  · by_cases ht : t < 16
    · rw [if_pos ht] at h
      cases hz : st.verts[t]? with
      | some z => rw [hz] at h; exact absurd h (by simp [ppure])
      | none => rw [hz] at h; injection h with h; exact h.symm
    · rw [if_neg ht] at h
      by_cases ht2 : t = 16
      · rw [if_pos ht2] at h
        exact readDeltaIndex_err h
      · rw [if_neg ht2] at h
        injection h with h; exact h.symm

theorem checkTri_err {vc : Nat} {t : Nat × Nat × Nat} {s : List Nat} {e : DecodeError}
    (h : checkTri vc t s = .error e) : e = .CorruptStream := by
  unfold checkTri at h
  split at h
  · exact absurd h (by simp [ppure])
  · injection h with h; exact h.symm

theorem decTri_err {vc : Nat} {st : IState} {s : List Nat} {e : DecodeError}
    (h : decTri vc st s = .error e) : e = .CorruptStream := by
  unfold decTri at h
  rcases pbind_err_elim h with h | ⟨op, s1, _, h⟩
  · exact readByte_err h
  · by_cases hop : op < 48
    · rw [if_pos hop] at h
      cases hge : st.edges[op / 3]? with
      | some en =>
        rw [hge] at h
        rcases pbind_err_elim h with h | ⟨z, s2, _, h⟩
        · exact readThird_err h
        · exact checkTri_err h
      | none =>
        rw [hge] at h
        injection h with h; exact h.symm
    · rw [if_neg hop] at h
      by_cases hop2 : op = 48
      · rw [if_pos hop2] at h
        rcases pbind_err_elim h with h | ⟨a, s2, _, h⟩
        · exact readDeltaIndex_err h
        rcases pbind_err_elim h with h | ⟨b, s3, _, h⟩
        · exact readDeltaIndex_err h
        rcases pbind_err_elim h with h | ⟨c, s4, _, h⟩
        · exact readDeltaIndex_err h
        exact checkTri_err h
      · rw [if_neg hop2] at h
        injection h with h; exact h.symm

theorem decTris_err {vc : Nat} : ∀ {n : Nat} {st : IState} {s : List Nat} {e : DecodeError},
    decTris vc n st s = .error e → e = .CorruptStream := by
  intro n
  induction n with
  | zero =>
    intro st s e h
    exact absurd h (by simp [decTris, ppure])
  | succ n ih =>
    intro st s e h
    unfold decTris at h
    rcases pbind_err_elim h with h | ⟨t, s1, _, h⟩
    · exact decTri_err h
    rcases pbind_err_elim h with h | ⟨ts, s2, _, h⟩
    · exact ih h
    exact absurd h (by simp [ppure])

theorem ppure_stable {α : Type} (x : α) : PStable (ppure x) := by
  intro s y rest h
  unfold ppure at h
  injection h with h
  obtain ⟨rfl, rfl⟩ := Prod.mk.inj h
  exact ⟨[], by simp, fun r2 => rfl⟩

theorem pfail_stable {α : Type} (e : DecodeError) : PStable (α := α) (pfail e) := by
  intro s y rest h
  exact absurd h (by simp [pfail])

theorem pbind_stable {α β : Type} {p : IParse α} {f : α → IParse β}
    (hp : PStable p) (hf : ∀ x, PStable (f x)) : PStable (pbind p f) := by
  intro s y rest h
  obtain ⟨x, mid, hx, hfx⟩ := pbind_ok_elim h
  obtain ⟨c1, hc1, hext1⟩ := hp s x mid hx
  obtain ⟨c2, hc2, hext2⟩ := hf x mid y rest hfx
  refine ⟨c1 ++ c2, ?_, ?_⟩
  · rw [hc1, hc2, List.append_assoc]
  · intro r2
    rw [List.append_assoc, pbind_ok (hext1 (c2 ++ r2))]
    exact hext2 r2

theorem readByte_stable : PStable readByte := by
  intro s x rest h
  unfold readByte at h
  cases s with
  | nil => exact absurd h (by simp)
  | cons b r =>
    injection h with h
    obtain ⟨rfl, rfl⟩ := Prod.mk.inj h
    exact ⟨[b], rfl, fun r2 => rfl⟩

theorem varintDec_stable : ∀ {s : List Nat} {v : Nat} {rest : List Nat},
    varintDec s = some (v, rest) →
    ∃ c, s = c ++ rest ∧ ∀ r2, varintDec (c ++ r2) = some (v, r2) := by
  intro s
  induction s with
  | nil => intro v rest h; simp [varintDec] at h
  | cons b t ih =>
    intro v rest h
    rw [varintDec] at h
    by_cases hb : b < 128
    · rw [if_pos hb] at h
      injection h with h
      obtain ⟨rfl, rfl⟩ := Prod.mk.inj h
      exact ⟨[b], rfl, fun r2 => by simp [varintDec, hb]⟩
    · rw [if_neg hb] at h
      cases hv : varintDec t with
      | none => rw [hv] at h; simp at h
      | some vr =>
        obtain ⟨v0, r0⟩ := vr
        rw [hv] at h
        injection h with h
        obtain ⟨h1, rfl⟩ := Prod.mk.inj h
        obtain ⟨c0, hc0, hext0⟩ := ih hv
        refine ⟨b :: c0, ?_, ?_⟩
        · rw [hc0]
          rfl
        · intro r2
          rw [← h1, List.cons_append, varintDec, if_neg hb, hext0 r2]

theorem readVarint_stable : PStable readVarint := by
  intro s x rest h
  unfold readVarint at h
  cases hv : varintDec s with
  | none => rw [hv] at h; exact absurd h (by simp)
  | some vr =>
    obtain ⟨v, r⟩ := vr
    rw [hv] at h
    injection h with h
    obtain ⟨rfl, rfl⟩ := Prod.mk.inj h
    obtain ⟨c, hc, hext⟩ := varintDec_stable hv
    refine ⟨c, hc, ?_⟩
    intro r2
    unfold readVarint
    rw [hext r2]

theorem readDeltaIndex_stable (last : Nat) : PStable (readDeltaIndex last) := by
  unfold readDeltaIndex
  refine pbind_stable readVarint_stable ?_
  intro u
  split
  · exact ppure_stable _
  · exact pfail_stable _

theorem checkTri_stable (vc : Nat) (t : Nat × Nat × Nat) : PStable (checkTri vc t) := by
  unfold checkTri
  split
  · exact ppure_stable _
  · exact pfail_stable _

theorem readThird_stable (st : IState) : PStable (readThird st) := by
  unfold readThird
  refine pbind_stable readByte_stable ?_
  intro t
  split
  · cases st.verts[t]? with
    | some z => exact ppure_stable _
    | none => exact pfail_stable _
  · split
    · exact readDeltaIndex_stable _
    · exact pfail_stable _

theorem decTri_stable (vc : Nat) (st : IState) : PStable (decTri vc st) := by
  unfold decTri
  refine pbind_stable readByte_stable ?_
  intro op
  split
  · cases st.edges[op / 3]? with
    | some e => exact pbind_stable (readThird_stable st) (fun z => checkTri_stable _ _)
    | none => exact pfail_stable _
  · split
    · refine pbind_stable (readDeltaIndex_stable _) ?_
      intro a
      refine pbind_stable (readDeltaIndex_stable _) ?_
      intro b
      refine pbind_stable (readDeltaIndex_stable _) ?_
      intro c
      exact checkTri_stable _ _
    · exact pfail_stable _

theorem decTris_stable (vc : Nat) : ∀ (n : Nat) (st : IState), PStable (decTris vc n st) := by
  intro n
  induction n with
  | zero => intro st; exact ppure_stable _
  | succ n ih =>
    intro st
    unfold decTris
    refine pbind_stable (decTri_stable vc st) ?_
    intro t
    refine pbind_stable (ih (stepState st t)) ?_
    intro ts
    exact ppure_stable _

/-- Core truncation-rejection property: removing at least one byte from the
end of a valid encoded index stream makes the decoder fail with
`CorruptStream` or `ShapeMismatch`; it can never succeed. -/
theorem indexTruncation {vc k : Nat} {l : List Nat} (hlen : l.length % 3 = 0)
    (hval : ∀ x ∈ l, x < vc) (hk : k < (encodeIndexStream l).length) :
    ∃ e, meshopt_decodeIndexBuffer l.length vc ((encodeIndexStream l).take k) = .error e ∧
      (e = .CorruptStream ∨ e = .ShapeMismatch) := by
  cases k with
  | zero =>
    refine ⟨.ShapeMismatch, ?_, Or.inr rfl⟩
    unfold meshopt_decodeIndexBuffer
    simp [hlen]
  | succ k0 =>
    have hstream : encodeIndexStream l = 1 :: encTris initIState (chunk3 l) := rfl
    have hk0 : k0 < (encTris initIState (chunk3 l)).length := by
      rw [hstream] at hk
      simp only [List.length_cons] at hk
      omega
    have htake : (encodeIndexStream l).take (k0 + 1) =
        1 :: (encTris initIState (chunk3 l)).take k0 := by
      rw [hstream]
      rfl
    rw [htake]
    cases hd : decTris vc (l.length / 3) initIState ((encTris initIState (chunk3 l)).take k0) with
    | error e =>
      refine ⟨e, ?_, Or.inl (decTris_err hd)⟩
      unfold meshopt_decodeIndexBuffer
      simp [hlen, hd]
    | ok p =>
      obtain ⟨tris, rest⟩ := p
      by_cases hrest : rest = []
      · exfalso
        subst hrest
        obtain ⟨c, hc, hext⟩ := decTris_stable vc (l.length / 3) initIState _ _ _ hd
        rw [List.append_nil] at hc
        have hfull := hext ((encTris initIState (chunk3 l)).drop k0)
        rw [← hc, List.take_append_drop] at hfull
        have hrt := @decTris_encTris vc (chunk3 l) initIState
          (by constructor <;> simp [initIState]) (chunk3_valid hval) []
        rw [List.append_nil] at hrt
        have hn : (chunk3 l).length = l.length / 3 := chunk3_length l
        rw [hn] at hrt
        rw [hrt] at hfull
        injection hfull with hfull
        have hdrop := Prod.mk.inj hfull
        have hlen0 := congrArg List.length hdrop.2
        simp only [List.length_nil, List.length_drop] at hlen0
        omega
      · refine ⟨.ShapeMismatch, ?_, Or.inr rfl⟩
        unfold meshopt_decodeIndexBuffer
        simp [hlen, hd, hrest]

/-! ### Index codec: size bound -/

theorem varintEnc_length_pos (v : Nat) : 1 ≤ (varintEnc v).length := by
  rw [varintEnc_eq]
  split <;> simp

theorem emitted_varint_le (z last vc : Nat) (hz : z < vc) (hl : last ≤ vc) :
    (varintEnc (zigzag ((z : Int) - (last : Int)))).length ≤ (varintEnc (2 * vc)).length := by
  apply varintEnc_length_mono
  apply zigzag_le _ vc
  · omega
  · omega

theorem rotTri_third_lt {vc r : Nat} {t : Nat × Nat × Nat} (h : validTri vc t) :
    (rotTri r t).2.2 < vc := by
  rcases r with _ | _ | r
  · exact h.2.2
  · exact h.1
  · exact h.2.1

theorem encThird_length {st : IState} {z vc : Nat} (hz : z < vc) (hl : st.last ≤ vc) :
    (encThird st z).length ≤ 1 + (varintEnc (2 * vc)).length := by
  unfold encThird
  cases findSlot (fun v => v == z) st.verts with
  | some v =>
    have := varintEnc_length_pos (2 * vc)
    simp only [List.length_cons, List.length_nil]
    omega
  | none =>
    simp only [List.length_cons]
    have := emitted_varint_le z st.last vc hz hl
    omega

theorem encTri_length {vc : Nat} {st : IState} {t : Nat × Nat × Nat}
    (hval : validTri vc t) (hl : st.last ≤ vc) :
    (encTri st t).length ≤ 1 + 3 * (varintEnc (2 * vc)).length := by
  have hV : 1 ≤ (varintEnc (2 * vc)).length := varintEnc_length_pos _
  unfold encTri
  cases findHit st.edges t with
  | some rs =>
    obtain ⟨r, s⟩ := rs
    simp only [List.length_cons]
    have := encThird_length (rotTri_third_lt (r := r) hval) hl
    omega
  | none =>
    simp only [List.length_cons, List.length_append]
    have h1 := emitted_varint_le t.1 st.last vc hval.1 hl
    have h2 := emitted_varint_le t.2.1 st.last vc hval.2.1 hl
    have h3 := emitted_varint_le t.2.2 st.last vc hval.2.2 hl
    omega

theorem stepState_last (st : IState) (t : Nat × Nat × Nat) :
    (stepState st t).last = t.2.2 := rfl

theorem encTris_length {vc : Nat} : ∀ (ts : List (Nat × Nat × Nat)) (st : IState),
    (∀ t ∈ ts, validTri vc t) → st.last ≤ vc →
    (encTris st ts).length ≤ ts.length * (1 + 3 * (varintEnc (2 * vc)).length) := by
  intro ts
  induction ts with
  | nil => intro st _ _; simp [encTris]
  | cons t ts ih =>
    intro st hval hl
    have hvt := hval t (List.mem_cons_self t ts)
    simp only [encTris, List.length_append, List.length_cons]
    have h1 := encTri_length hvt hl
    have h2 := ih (stepState st t) (fun u hu => hval u (List.mem_cons_of_mem t hu))
      (by rw [stepState_last]; exact Nat.le_of_lt hvt.2.2)
    rw [Nat.succ_mul]
    omega

/-- Core bound property: the encoded index stream never exceeds the bound
estimator (spec section 8, "Bound soundness"). -/
theorem indexBoundSound {vc : Nat} {l : List Nat} (hval : ∀ x ∈ l, x < vc) :
    (encodeIndexStream l).length ≤ meshopt_encodeIndexBufferBound l.length vc := by
  unfold encodeIndexStream meshopt_encodeIndexBufferBound
  simp only [List.length_cons]
  have h := @encTris_length vc (chunk3 l) initIState (chunk3_valid hval)
    (by simp [initIState])
  rw [chunk3_length] at h
  omega

/-! ### Vertex codec: bit-packing lemmas -/

theorem toBits_length (w : Nat) : ∀ v, (toBits w v).length = w := by
  induction w with
  | zero => intro v; rfl
  | succ w ih => intro v; simp [toBits, ih]

theorem bitsToNat_append_bit (bs : List Bool) (b : Bool) :
    bitsToNat (bs ++ [b]) = 2 * bitsToNat bs + (if b then 1 else 0) := by
  unfold bitsToNat
  rw [List.foldl_append]
  rfl

theorem bitsToNat_toBits {w : Nat} : ∀ {v : Nat}, v < 2 ^ w → bitsToNat (toBits w v) = v := by
  induction w with
  | zero =>
    intro v h
    interval_cases v
    rfl
  | succ w ih =>
    intro v h
    have hdiv : v / 2 < 2 ^ w := by
      rw [pow_succ] at h
      omega
    rw [toBits, bitsToNat_append_bit, ih hdiv]
    rcases Nat.mod_two_eq_zero_or_one v with h2 | h2 <;> simp [h2] <;> omega

theorem toBits_bitsToNat : ∀ {w : Nat} {bs : List Bool}, bs.length = w →
    toBits w (bitsToNat bs) = bs := by
  intro w
  induction w with
  | zero =>
    intro bs h
    rw [List.length_eq_zero] at h
    subst h
    rfl
  | succ w ih =>
    intro bs h
    rcases bs.eq_nil_or_concat with rfl | ⟨bs0, b, rfl⟩
    · simp at h
    · have hl : bs0.length = w := by
        rw [List.length_concat] at h
        omega
      rw [List.concat_eq_append, bitsToNat_append_bit, toBits]
      have hd : (2 * bitsToNat bs0 + (if b then 1 else 0)) / 2 = bitsToNat bs0 := by
        cases b <;> (first | (simp; omega) | simp)
      have hm : ((2 * bitsToNat bs0 + (if b then 1 else 0)) % 2 == 1) = b := by
        cases b <;> (first | (simp; omega) | simp)
      rw [hd, hm, ih hl]

theorem bitsToNat_lt (bs : List Bool) : bitsToNat bs < 2 ^ bs.length := by
  induction bs using List.reverseRecOn with
  | nil => simp [bitsToNat]
  | append_singleton bs b ih =>
    rw [bitsToNat_append_bit]
    simp only [List.length_append, List.length_cons, List.length_nil]
    have := pow_succ 2 bs.length
    cases b <;> simp <;> omega

theorem bitsToBytesF_irrel : ∀ (f g : Nat) (bs : List Bool), bs.length ≤ f → bs.length ≤ g →
    bitsToBytesF f bs = bitsToBytesF g bs := by
  intro f
  induction f with
  | zero =>
    intro g bs hf _
    have : bs = [] := List.length_eq_zero.mp (by omega)
    subst this
    cases g <;> rfl
  | succ f ih =>
    intro g bs hf hg
    cases bs with
    | nil => cases g <;> rfl
    | cons b t =>
      cases g with
      | zero => simp at hg
      | succ g =>
        show bitsToNat (padTo8 ((b :: t).take 8)) :: bitsToBytesF f ((b :: t).drop 8) =
          bitsToNat (padTo8 ((b :: t).take 8)) :: bitsToBytesF g ((b :: t).drop 8)
        congr 1
        apply ih
        · simp only [List.length_drop, List.length_cons] at *
          omega
        · simp only [List.length_drop, List.length_cons] at *
          omega

theorem bitsToBytes_eq (bs : List Bool) : bitsToBytes bs =
    if bs = [] then [] else bitsToNat (padTo8 (bs.take 8)) :: bitsToBytes (bs.drop 8) := by
  cases bs with
  | nil => rfl
  | cons b t =>
    rw [if_neg (List.cons_ne_nil b t)]
    show bitsToNat (padTo8 ((b :: t).take 8)) :: bitsToBytesF t.length ((b :: t).drop 8) =
      bitsToNat (padTo8 ((b :: t).take 8)) :: bitsToBytesF ((b :: t).drop 8).length ((b :: t).drop 8)
    congr 1
    apply bitsToBytesF_irrel
    · simp only [List.length_drop, List.length_cons]
      omega
    · exact Nat.le_refl _

theorem bitsToBytes_length (bs : List Bool) : (bitsToBytes bs).length = (bs.length + 7) / 8 := by
  have H : ∀ (n : Nat) (bs : List Bool), bs.length ≤ n →
      (bitsToBytes bs).length = (bs.length + 7) / 8 := by
    intro n
    induction n with
    | zero =>
      intro bs h
      have : bs = [] := List.length_eq_zero.mp (by omega)
      subst this
      rfl
    | succ n ih =>
      intro bs h
      rw [bitsToBytes_eq]
      by_cases hbs : bs = []
      · subst hbs
        rfl
      · rw [if_neg hbs]
        have hpos : 0 < bs.length := List.length_pos.mpr hbs
        simp only [List.length_cons]
        rw [ih (bs.drop 8) (by simp only [List.length_drop]; omega)]
        simp only [List.length_drop]
        omega
  exact H bs.length bs (Nat.le_refl _)

theorem padTo8_length {bs : List Bool} (h : bs.length ≤ 8) : (padTo8 bs).length = 8 := by
  simp only [padTo8, List.length_append, List.length_replicate]
  omega

theorem bytesToBits_bitsToBytes (bs : List Bool) :
    bytesToBits (bitsToBytes bs) = bs ++ List.replicate ((8 - bs.length % 8) % 8) false := by
  have H : ∀ (n : Nat) (bs : List Bool), bs.length ≤ n →
      bytesToBits (bitsToBytes bs) = bs ++ List.replicate ((8 - bs.length % 8) % 8) false := by
    intro n
    induction n with
    | zero =>
      intro bs h
      have : bs = [] := List.length_eq_zero.mp (by omega)
      subst this
      rfl
    | succ n ih =>
      intro bs h
      by_cases hbs : bs = []
      · subst hbs
        rfl
      · rw [bitsToBytes_eq, if_neg hbs]
        have hpos : 0 < bs.length := List.length_pos.mpr hbs
        unfold bytesToBits
        simp only [List.map_cons, List.flatten_cons]
        have htake8 : (bs.take 8).length ≤ 8 := by
          simp only [List.length_take]
          omega
        rw [toBits_bitsToNat (padTo8_length htake8)]
        have hrest := ih (bs.drop 8) (by simp only [List.length_drop]; omega)
        unfold bytesToBits at hrest
        rw [hrest]
        simp only [List.length_drop]
        by_cases h8 : 8 ≤ bs.length
        · have htk : (bs.take 8).length = 8 := by
            simp only [List.length_take]
            omega
          have hpad : padTo8 (bs.take 8) = bs.take 8 := by
            simp [padTo8, htk]
          rw [hpad, ← List.append_assoc, List.take_append_drop]
          have : (bs.length - 8) % 8 = bs.length % 8 := by omega
          rw [this]
        · have htk : bs.take 8 = bs := List.take_of_length_le (by omega)
          have hdk : bs.drop 8 = [] := List.drop_eq_nil_of_le (by omega)
          rw [htk, hdk]
          simp only [List.nil_append]
          unfold padTo8
          rw [List.append_assoc]
          have h1 : (8 - bs.length % 8) % 8 = 8 - bs.length := by omega
          have h3 : (8 - (bs.length - 8) % 8) % 8 = 0 := by omega
          rw [h1, h3]
          simp
  exact H bs.length bs (Nat.le_refl _)

theorem flatten_map_toBits_length (w : Nat) (vals : List Nat) :
    ((vals.map (toBits w)).flatten).length = vals.length * w := by
  induction vals with
  | nil => simp
  | cons v vs ih =>
    simp only [List.map_cons, List.flatten_cons, List.length_append, toBits_length,
      List.length_cons, ih]
    ring

theorem unpackBits_flatten {w : Nat} : ∀ (vals : List Nat) (junk : List Bool),
    (∀ v ∈ vals, v < 2 ^ w) →
    unpackBits w vals.length ((vals.map (toBits w)).flatten ++ junk) = vals := by
  intro vals
  induction vals with
  | nil => intro junk _; rfl
  | cons v vs ih =>
    intro junk hv
    simp only [List.map_cons, List.flatten_cons, List.length_cons, List.append_assoc]
    rw [unpackBits]
    have hlen := toBits_length w v
    congr 1
    · rw [List.take_left' hlen]
      exact bitsToNat_toBits (hv v (List.mem_cons_self v vs))
    · rw [List.drop_left' hlen]
      exact ih junk (fun u hu => hv u (List.mem_cons_of_mem v hu))

/-! ### Vertex codec: lane round-trip -/

theorem zigzag8_lt (d : Nat) : zigzag8 d < 256 := by
  unfold zigzag8
  split <;> omega

theorem unzigzag8_zigzag8 {d : Nat} (hd : d < 256) : unzigzag8 (zigzag8 d) = d := by
  unfold zigzag8 unzigzag8
  rw [Nat.mod_eq_of_lt hd]
  by_cases h1 : d < 128
  · rw [if_pos h1, if_pos (by omega)]
    omega
  · rw [if_neg h1, if_neg (by omega)]
    omega

theorem residuals_length (col : List Nat) : ∀ p, (residuals p col).length = col.length := by
  induction col with
  | nil => intro p; rfl
  | cons c cs ih => intro p; simp [residuals, ih]

theorem residuals_lt (col : List Nat) : ∀ p, ∀ v ∈ residuals p col, v < 256 := by
  induction col with
  | nil => intro p v hv; simp [residuals] at hv
  | cons c cs ih =>
    intro p v hv
    simp only [residuals, List.mem_cons] at hv
    rcases hv with rfl | hv
    · exact zigzag8_lt _
    · exact ih c v hv

theorem mem_le_foldr_max : ∀ {vals : List Nat} {v : Nat}, v ∈ vals → v ≤ vals.foldr max 0 := by
  intro vals
  induction vals with
  | nil => intro v hv; simp at hv
  | cons x xs ih =>
    intro v hv
    rcases List.mem_cons.mp hv with rfl | hv
    · exact Nat.le_max_left _ _
    · exact Nat.le_trans (ih hv) (Nat.le_max_right _ _)

theorem foldr_max_lt {vals : List Nat} {m : Nat} (hm : 0 < m) (h : ∀ v ∈ vals, v < m) :
    vals.foldr max 0 < m := by
  induction vals with
  | nil => simp [hm]
  | cons x xs ih =>
    simp only [List.foldr_cons]
    have h1 := h x (List.mem_cons_self x xs)
    have h2 := ih (fun v hv => h v (List.mem_cons_of_mem x hv))
    omega

theorem bitWidth8_le (m : Nat) : bitWidth8 m ≤ 8 := by
  unfold bitWidth8
  split_ifs <;> omega

theorem bitWidth8_lt {m : Nat} (h : m < 256) : m < 2 ^ bitWidth8 m := by
  unfold bitWidth8
  split_ifs <;> omega

theorem residual_lt_width {p : Nat} {col : List Nat} :
    ∀ v ∈ residuals p col, v < 2 ^ widthFor (residuals p col) := by
  intro v hv
  have h1 := mem_le_foldr_max hv
  have h2 : (residuals p col).foldr max 0 < 256 :=
    foldr_max_lt (by omega) (residuals_lt col p)
  have h3 := bitWidth8_lt h2
  unfold widthFor
  omega

theorem reconstructLane_residuals : ∀ (col : List Nat) (p : Nat), p < 256 →
    (∀ c ∈ col, c < 256) → reconstructLane p (residuals p col) = col := by
  intro col
  induction col with
  | nil => intro p _ _; rfl
  | cons c cs ih =>
    intro p hp hc
    have hcc := hc c (List.mem_cons_self c cs)
    have harg : (c + 256 - p) % 256 < 256 := Nat.mod_lt _ (by omega)
    simp only [residuals, reconstructLane]
    rw [unzigzag8_zigzag8 harg]
    have hhead : (p + (c + 256 - p) % 256) % 256 = c := by omega
    rw [hhead]
    rw [ih c hcc (fun u hu => hc u (List.mem_cons_of_mem c hu))]

theorem decVLane_enc {count p : Nat} {col rest : List Nat} (hlen : col.length = count)
    (hcol : ∀ c ∈ col, c < 256) (hp : p < 256) :
    decVLane count p (encVLane p col ++ rest) = .ok (col, rest) := by
  unfold encVLane decVLane
  rw [List.cons_append]
  rw [pbind_ok (show readByte (widthFor (residuals p col) ::
    (packBits (widthFor (residuals p col)) (residuals p col) ++ rest)) =
    .ok (widthFor (residuals p col), packBits (widthFor (residuals p col)) (residuals p col) ++ rest)
    from rfl)]
  have hw : widthFor (residuals p col) ≤ 8 := bitWidth8_le _
  rw [if_pos hw]
  have hlenpk : (packBits (widthFor (residuals p col)) (residuals p col)).length =
      (count * widthFor (residuals p col) + 7) / 8 := by
    unfold packBits
    rw [bitsToBytes_length, flatten_map_toBits_length, residuals_length, hlen]
  have hpk : readPacked (widthFor (residuals p col)) count
      (packBits (widthFor (residuals p col)) (residuals p col) ++ rest) =
      .ok (residuals p col, rest) := by
    unfold readPacked
    rw [if_neg (by simp only [List.length_append, hlenpk]; omega)]
    rw [List.take_left' hlenpk, List.drop_left' hlenpk]
    unfold packBits
    rw [bytesToBits_bitsToBytes]
    have hcnt : count = (residuals p col).length := by rw [residuals_length, hlen]
    rw [hcnt, unpackBits_flatten (residuals p col) _ residual_lt_width]
  rw [pbind_ok hpk]
  show ppure (reconstructLane p (residuals p col)) rest = .ok (col, rest)
  rw [reconstructLane_residuals col p hp hcol]
  rfl

theorem decVLanes_enc {count : Nat} : ∀ (ps : List Nat) (cs : List (List Nat)) (rest : List Nat),
    ps.length = cs.length → (∀ p ∈ ps, p < 256) →
    (∀ c ∈ cs, c.length = count ∧ ∀ b ∈ c, b < 256) →
    decVLanes count ps (encLanes ps cs ++ rest) = .ok (cs, rest) := by
  intro ps
  induction ps with
  | nil =>
    intro cs rest hlen _ _
    have : cs = [] := List.length_eq_zero.mp (by simpa using hlen.symm)
    subst this
    rfl
  | cons p ps ih =>
    intro cs rest hlen hp hc
    cases cs with
    | nil => simp at hlen
    | cons c cs0 =>
      have hcc := hc c (List.mem_cons_self c cs0)
      simp only [encLanes, decVLanes, List.append_assoc]
      rw [pbind_ok (decVLane_enc hcc.1 hcc.2 (hp p (List.mem_cons_self p ps)))]
      rw [pbind_ok (ih cs0 rest (by simpa using hlen)
        (fun u hu => hp u (List.mem_cons_of_mem p hu))
        (fun u hu => hc u (List.mem_cons_of_mem c hu)))]
      rfl

/-! ### Vertex codec: block and buffer round-trip -/

theorem range_map_getD : ∀ (r : List Nat),
    (List.range r.length).map (fun j => r.getD j 0) = r := by
  intro r
  induction r with
  | nil => simp
  | cons x xs ih =>
    rw [List.length_cons, List.range_succ_eq_map, List.map_cons, List.map_map]
    have hcomp : ((fun j => (x :: xs).getD j 0) ∘ Nat.succ) = (fun j => xs.getD j 0) := by
      funext j
      exact List.getD_cons_succ
    rw [hcomp, ih]
    rfl

theorem recsFromCols_columnsOf {vs : Nat} {blk : List (List Nat)}
    (hr : ∀ r ∈ blk, r.length = vs ∧ ∀ b ∈ r, b < 256) :
    recsFromCols blk.length (columnsOf vs blk) = blk := by
  apply List.ext_getElem?
  intro i
  by_cases hi : i < blk.length
  · unfold recsFromCols
    rw [List.getElem?_map, List.getElem?_range hi, List.getElem?_eq_getElem hi]
    simp only [Option.map_some']
    congr 1
    unfold columnsOf
    rw [List.map_map]
    have hbi := hr blk[i] (List.getElem_mem hi)
    have h1 : (List.range vs).map
        ((fun col => col.getD i 0) ∘ (fun j => blk.map (fun r => (r.getD j 0) % 256))) =
        (List.range vs).map (fun j => blk[i].getD j 0) := by
      apply List.map_congr_left
      intro j hj
      have hjlt : j < vs := List.mem_range.mp hj
      simp only [Function.comp]
      rw [List.getD_eq_getElem?_getD, List.getElem?_map, List.getElem?_eq_getElem hi]
      simp only [Option.map_some', Option.getD_some]
      have hmem : blk[i].getD j 0 ∈ blk[i] := by
        rw [List.getD_eq_getElem?_getD,
          List.getElem?_eq_getElem (show j < blk[i].length by rw [hbi.1]; exact hjlt)]
        exact List.getElem_mem _
      exact Nat.mod_eq_of_lt (hbi.2 _ hmem)
    rw [h1, ← hbi.1]
    exact range_map_getD blk[i]
  · rw [List.getElem?_eq_none (l := blk) (by omega)]
    rw [List.getElem?_eq_none]
    unfold recsFromCols
    simp only [List.length_map, List.length_range]
    omega

theorem decVBlock_enc {vs : Nat} {prev : List Nat} {blk : List (List Nat)} {rest : List Nat}
    (hr : ∀ r ∈ blk, r.length = vs ∧ ∀ b ∈ r, b < 256) :
    decVBlock vs blk.length prev (encVBlock vs prev blk ++ rest) = .ok (blk, rest) := by
  unfold decVBlock encVBlock
  have hps : ∀ p ∈ prevBytesOf vs prev, p < 256 := by
    intro p hp
    unfold prevBytesOf at hp
    simp only [List.mem_map] at hp
    obtain ⟨j, _, rfl⟩ := hp
    exact Nat.mod_lt _ (by omega)
  have hcs : ∀ c ∈ columnsOf vs blk, c.length = blk.length ∧ ∀ b ∈ c, b < 256 := by
    intro c hc
    unfold columnsOf at hc
    simp only [List.mem_map] at hc
    obtain ⟨j, _, rfl⟩ := hc
    refine ⟨by simp, ?_⟩
    intro b hb
    simp only [List.mem_map] at hb
    obtain ⟨r, _, rfl⟩ := hb
    exact Nat.mod_lt _ (by omega)
  have hlens : (prevBytesOf vs prev).length = (columnsOf vs blk).length := by
    simp [prevBytesOf, columnsOf]
  rw [pbind_ok (decVLanes_enc _ _ rest hlens hps hcs)]
  show ppure (recsFromCols blk.length (columnsOf vs blk)) rest = _
  rw [recsFromCols_columnsOf hr]
  rfl

theorem chunk16F_irrel {α : Type} : ∀ (f g : Nat) (l : List α), l.length ≤ f → l.length ≤ g →
    chunk16F f l = chunk16F g l := by
  intro f
  induction f with
  | zero =>
    intro g l hf _
    have : l = [] := List.length_eq_zero.mp (by omega)
    subst this
    cases g <;> rfl
  | succ f ih =>
    intro g l hf hg
    cases l with
    | nil => cases g <;> rfl
    | cons x t =>
      cases g with
      | zero => simp at hg
      | succ g =>
        show (x :: t).take 16 :: chunk16F f ((x :: t).drop 16) =
          (x :: t).take 16 :: chunk16F g ((x :: t).drop 16)
        congr 1
        apply ih <;> (simp only [List.length_drop, List.length_cons] at *; omega)

theorem chunk16_ne {α : Type} {l : List α} (h : l ≠ []) :
    chunk16 l = l.take 16 :: chunk16 (l.drop 16) := by
  cases l with
  | nil => exact absurd rfl h
  | cons x t =>
    show (x :: t).take 16 :: chunk16F t.length ((x :: t).drop 16) =
      (x :: t).take 16 :: chunk16F ((x :: t).drop 16).length ((x :: t).drop 16)
    congr 1
    apply chunk16F_irrel
    · simp only [List.length_drop, List.length_cons]
      omega
    · exact Nat.le_refl _

theorem getLastD_mem {α : Type} : ∀ (l : List α) (d : α), l ≠ [] → l.getLastD d ∈ l := by
  intro l
  induction l with
  | nil => intro d h; exact absurd rfl h
  | cons x xs ih =>
    intro d _
    rw [List.getLastD_cons]
    cases hxs : xs with
    | nil => simp
    | cons y ys =>
      have := ih x (by simp [hxs])
      rw [hxs] at this
      rw [← hxs] at this ⊢
      exact List.mem_cons_of_mem x this

theorem decVBlocks_enc {vs : Nat} : ∀ (n : Nat) (recs : List (List Nat)) (prev rest : List Nat),
    recs.length ≤ n → (∀ r ∈ recs, r.length = vs ∧ ∀ b ∈ r, b < 256) →
    decVBlocks vs ((recs.length + 15) / 16) recs.length prev
      (encVBlocksL vs prev (chunk16 recs) ++ rest) = .ok (recs, rest) := by
  intro n
  induction n with
  | zero =>
    intro recs prev rest hn _
    have : recs = [] := List.length_eq_zero.mp (by omega)
    subst this
    rfl
  | succ n ih =>
    intro recs prev rest hn hr
    by_cases he : recs = []
    · subst he
      rfl
    · rw [chunk16_ne he]
      have hpos : 0 < recs.length := List.length_pos.mpr he
      simp only [encVBlocksL]
      have hnb : (recs.length + 15) / 16 = ((recs.drop 16).length + 15) / 16 + 1 := by
        simp only [List.length_drop]
        omega
      rw [hnb]
      simp only [decVBlocks]
      have hcnt : min 16 recs.length = (recs.take 16).length := by
        simp [List.length_take]
      rw [hcnt, List.append_assoc]
      rw [pbind_ok (decVBlock_enc (fun r hrm => hr r (List.mem_of_mem_take hrm)))]
      have hrem : recs.length - (recs.take 16).length = (recs.drop 16).length := by
        simp only [List.length_take, List.length_drop]
        omega
      rw [hrem]
      rw [pbind_ok (ih (recs.drop 16) ((recs.take 16).getLastD prev) rest
        (by simp only [List.length_drop]; omega)
        (fun r hrm => hr r (List.mem_of_mem_drop hrm)))]
      show ppure (recs.take 16 ++ recs.drop 16) rest = _
      rw [List.take_append_drop]
      rfl

theorem chunkRecords_length : ∀ (vc vs : Nat) (v : List Nat),
    (chunkRecords vc vs v).length = vc := by
  intro vc
  induction vc with
  | zero => intro vs v; rfl
  | succ vc ih => intro vs v; simp [chunkRecords, ih]

theorem chunkRecords_wf : ∀ (vc vs : Nat) (v : List Nat), v.length = vc * vs →
    (∀ b ∈ v, b < 256) → ∀ r ∈ chunkRecords vc vs v, r.length = vs ∧ ∀ b ∈ r, b < 256 := by
  intro vc
  induction vc with
  | zero => intro vs v _ _ r hr; simp [chunkRecords] at hr
  | succ vc ih =>
    intro vs v hlen hb r hr
    have hv : v.length = vc * vs + vs := by rw [hlen]; ring
    simp only [chunkRecords, List.mem_cons] at hr
    rcases hr with rfl | hr
    · refine ⟨by simp only [List.length_take]; omega, ?_⟩
      intro b hbm
      exact hb b (List.mem_of_mem_take hbm)
    · exact ih vs (v.drop vs) (by simp only [List.length_drop]; omega)
        (fun b hbm => hb b (List.mem_of_mem_drop hbm)) r hr

theorem chunkRecords_flatten : ∀ (vc vs : Nat) (v : List Nat), v.length = vc * vs →
    (chunkRecords vc vs v).flatten = v := by
  intro vc
  induction vc with
  | zero =>
    intro vs v hlen
    have : v = [] := List.length_eq_zero.mp (by omega)
    subst this
    rfl
  | succ vc ih =>
    intro vs v hlen
    have hv : v.length = vc * vs + vs := by rw [hlen]; ring
    simp only [chunkRecords, List.flatten_cons]
    rw [ih vs (v.drop vs) (by simp only [List.length_drop]; omega), List.take_append_drop]

/-- Core round-trip property of the vertex codec: decoding the encoded
stream of any byte buffer of the declared shape reproduces it
byte-for-byte. -/
theorem vertexRoundtrip {vc vs : Nat} {v : List Nat} (hlen : v.length = vc * vs)
    (hb : ∀ b ∈ v, b < 256) :
    meshopt_decodeVertexBuffer vc vs (encodeVertexStream vc vs v) = .ok v := by
  unfold meshopt_decodeVertexBuffer encodeVertexStream
  have hmain := decVBlocks_enc (chunkRecords vc vs v).length (chunkRecords vc vs v)
    (List.replicate vs 0) [] (Nat.le_refl _) (chunkRecords_wf vc vs v hlen hb)
  rw [List.append_nil, chunkRecords_length] at hmain
  simp [hmain, chunkRecords_flatten vc vs v hlen]

/-! ### Vertex codec: size bound -/

theorem encVLane_length_le {p : Nat} {col : List Nat} (h : col.length ≤ 16) :
    (encVLane p col).length ≤ 17 := by
  unfold encVLane packBits
  simp only [List.length_cons]
  rw [bitsToBytes_length, flatten_map_toBits_length, residuals_length]
  have hw : widthFor (residuals p col) ≤ 8 := bitWidth8_le _
  have hm := Nat.mul_le_mul h hw
  omega

theorem encLanes_length_le : ∀ (ps : List Nat) (cs : List (List Nat)),
    (∀ c ∈ cs, c.length ≤ 16) → (encLanes ps cs).length ≤ ps.length * 17 := by
  intro ps
  induction ps with
  | nil => intro cs _; cases cs <;> simp [encLanes]
  | cons p ps ih =>
    intro cs hc
    cases cs with
    | nil => simp [encLanes]
    | cons c cs0 =>
      simp only [encLanes, List.length_append, List.length_cons]
      have h1 := encVLane_length_le (p := p) (hc c (List.mem_cons_self c cs0))
      have h2 := ih cs0 (fun u hu => hc u (List.mem_cons_of_mem c hu))
      rw [Nat.succ_mul]
      omega

theorem encVBlock_length_le {vs : Nat} {prev : List Nat} {blk : List (List Nat)}
    (h : blk.length ≤ 16) : (encVBlock vs prev blk).length ≤ vs * 17 := by
  unfold encVBlock
  have hps : (prevBytesOf vs prev).length = vs := by
    simp [prevBytesOf]
  have hcs : ∀ c ∈ columnsOf vs blk, c.length ≤ 16 := by
    intro c hc
    unfold columnsOf at hc
    simp only [List.mem_map] at hc
    obtain ⟨j, _, rfl⟩ := hc
    simp only [List.length_map]
    exact h
  have := encLanes_length_le (prevBytesOf vs prev) (columnsOf vs blk) hcs
  rw [hps] at this
  exact this

theorem chunk16_length {α : Type} (l : List α) : (chunk16 l).length = (l.length + 15) / 16 := by
  have H : ∀ (n : Nat) (l : List α), l.length ≤ n → (chunk16 l).length = (l.length + 15) / 16 := by
    intro n
    induction n with
    | zero =>
      intro l h
      have : l = [] := List.length_eq_zero.mp (by omega)
      subst this
      simp [chunk16, chunk16F]
    | succ n ih =>
      intro l h
      by_cases he : l = []
      · subst he
        simp [chunk16, chunk16F]
      · rw [chunk16_ne he]
        have hpos : 0 < l.length := List.length_pos.mpr he
        simp only [List.length_cons]
        rw [ih (l.drop 16) (by simp only [List.length_drop]; omega)]
        simp only [List.length_drop]
        omega
  exact H l.length l (Nat.le_refl _)

theorem chunk16_mem_le {α : Type} (l : List α) : ∀ b ∈ chunk16 l, b.length ≤ 16 := by
  have H : ∀ (n : Nat) (l : List α), l.length ≤ n → ∀ b ∈ chunk16 l, b.length ≤ 16 := by
    intro n
    induction n with
    | zero =>
      intro l h b hb
      have : l = [] := List.length_eq_zero.mp (by omega)
      subst this
      simp [chunk16, chunk16F] at hb
    | succ n ih =>
      intro l h b hb
      by_cases he : l = []
      · subst he
        simp [chunk16, chunk16F] at hb
      · rw [chunk16_ne he] at hb
        rcases List.mem_cons.mp hb with rfl | hb
        · simp only [List.length_take]
          omega
        · exact ih (l.drop 16) (by simp only [List.length_drop]; omega) b hb
  exact H l.length l (Nat.le_refl _)

theorem encVBlocksL_length_le {vs : Nat} : ∀ (blocks : List (List (List Nat))) (prev : List Nat),
    (∀ b ∈ blocks, b.length ≤ 16) →
    (encVBlocksL vs prev blocks).length ≤ blocks.length * (vs * 17) := by
  intro blocks
  induction blocks with
  | nil => intro prev _; simp [encVBlocksL]
  | cons blk bls ih =>
    intro prev hb
    simp only [encVBlocksL, List.length_append, List.length_cons]
    have h1 := @encVBlock_length_le vs prev blk (hb blk (List.mem_cons_self blk bls))
    have h2 := ih (blk.getLastD prev) (fun u hu => hb u (List.mem_cons_of_mem blk hu))
    rw [Nat.succ_mul]
    omega

/-- Core bound property of the vertex codec: the encoded stream never
exceeds the bound estimator, for any input buffer. -/
theorem vertexBoundSound (vc vs : Nat) (v : List Nat) :
    (encodeVertexStream vc vs v).length ≤ meshopt_encodeVertexBufferBound vc vs := by
  unfold encodeVertexStream meshopt_encodeVertexBufferBound
  simp only [List.length_cons]
  have h := @encVBlocksL_length_le vs (chunk16 (chunkRecords vc vs v))
    (List.replicate vs 0) (chunk16_mem_le _)
  rw [chunk16_length, chunkRecords_length] at h
  have heq : ((vc + 15) / 16) * (vs * 17) = ((vc + 15) / 16) * (17 * vs) := by ring
  rw [heq] at h
  omega

/-- The vertex bound estimator always covers the raw buffer size. -/
theorem vertexBoundGeRaw (vc vs : Nat) :
    vc * vs ≤ meshopt_encodeVertexBufferBound vc vs := by
  unfold meshopt_encodeVertexBufferBound
  have h1 : vc ≤ 16 * ((vc + 15) / 16) := by omega
  have h2 : vc * vs ≤ (16 * ((vc + 15) / 16)) * vs := Nat.mul_le_mul_right vs h1
  have h3 : (16 * ((vc + 15) / 16)) * vs ≤ ((vc + 15) / 16) * (17 * vs) := by
    have he : (16 * ((vc + 15) / 16)) * vs = ((vc + 15) / 16) * (16 * vs) := by ring
    rw [he]
    apply Nat.mul_le_mul_left
    omega
  omega

/-! ### Encoded streams are never empty -/

theorem encodeIndexStream_pos (indices : List Nat) : 0 < (encodeIndexStream indices).length := by
  simp [encodeIndexStream]

theorem encodeVertexStream_pos (vc vs : Nat) (v : List Nat) :
    0 < (encodeVertexStream vc vs v).length := by
  simp [encodeVertexStream]

/-! ### Index decoder: out-of-range reconstructions are CorruptStream

The decoder's parse path is independent of the declared `vertex_count`:
only the final `checkTri` validation consults it.  So a stream from which
an index `>= vertex_count` would be reconstructed (witnessed by a
successful decode under a larger declared bound) is rejected by the
`vertex_count` decode with `CorruptStream`, at the first offending
triangle, before anything out of range is written. -/

theorem pbind_err {α β : Type} {p : IParse α} {f : α → IParse β} {s : List Nat}
    {e : DecodeError} (h : p s = .error e) : pbind p f s = .error e := by
  unfold pbind
  rw [h]

theorem decTri_mono {vc vc' : Nat} {st : IState} {s : List Nat} {t : Nat × Nat × Nat}
    {rest : List Nat} (h : decTri vc' st s = .ok (t, rest)) :
    decTri vc st s = checkTri vc t rest := by
  unfold decTri at h ⊢
  obtain ⟨op, s1, hb, h⟩ := pbind_ok_elim h
  rw [pbind_ok hb]
  by_cases hop : op < 48
  · rw [if_pos hop] at h ⊢
    cases hge : st.edges[op / 3]? with
    | some e =>
      rw [hge] at h
      obtain ⟨z, s2, hz, h⟩ := pbind_ok_elim h
      obtain ⟨_, ht, hrest⟩ := checkTri_sound h
      show pbind (readThird st)
        (fun z => checkTri vc (unrotTri (op % 3) (e.2.1, e.1, z))) s1 = checkTri vc t rest
      rw [pbind_ok hz, ← ht, ← hrest]
    | none =>
      rw [hge] at h
      exact absurd h (by simp [pfail])
  · rw [if_neg hop] at h ⊢
    by_cases hop2 : op = 48
    · rw [if_pos hop2] at h ⊢
      obtain ⟨a, s2, ha, h⟩ := pbind_ok_elim h
      obtain ⟨b, s3, hbv, h⟩ := pbind_ok_elim h
      obtain ⟨c, s4, hcv, h⟩ := pbind_ok_elim h
      obtain ⟨_, ht, hrest⟩ := checkTri_sound h
      rw [pbind_ok ha, pbind_ok hbv, pbind_ok hcv, ← ht, ← hrest]
    · rw [if_neg hop2] at h
      exact absurd h (by simp [pfail])

theorem decTris_reject {vc vc' : Nat} : ∀ {n : Nat} {st : IState} {s : List Nat}
    {ts : List (Nat × Nat × Nat)} {rest : List Nat},
    decTris vc' n st s = .ok (ts, rest) → (∃ t ∈ ts, ¬validTri vc t) →
    decTris vc n st s = .error .CorruptStream := by
  intro n
  induction n with
  | zero =>
    intro st s ts rest h hex
    obtain ⟨hts, _⟩ := ppure_ok_elim h
    obtain ⟨t, htm, _⟩ := hex
    rw [hts] at htm
    simp at htm
  | succ n ih =>
    intro st s ts rest h hex
    unfold decTris at h ⊢
    obtain ⟨t0, s1, hdt, h⟩ := pbind_ok_elim h
    obtain ⟨ts0, s2, hdts, h⟩ := pbind_ok_elim h
    obtain ⟨hts, _⟩ := ppure_ok_elim h
    have hmono := @decTri_mono vc vc' st s t0 s1 hdt
    by_cases hval : validTri vc t0
    · obtain ⟨t, htm, htbad⟩ := hex
      rw [hts] at htm
      rcases List.mem_cons.mp htm with rfl | htm
      · exact absurd hval htbad
      · rw [pbind_ok (hmono.trans (checkTri_valid hval s1))]
        exact pbind_err (ih hdts ⟨t, htm, htbad⟩)
    · refine pbind_err ?_
      rw [hmono]
      unfold checkTri
      unfold validTri at hval
      rw [if_neg hval]
      rfl

theorem flat3_mem : ∀ {ts : List (Nat × Nat × Nat)} {x : Nat}, x ∈ flat3 ts →
    ∃ t ∈ ts, x = t.1 ∨ x = t.2.1 ∨ x = t.2.2 := by
  intro ts
  induction ts with
  | nil => intro x hx; simp [flat3] at hx
  | cons t ts ih =>
    intro x hx
    simp only [flat3, List.mem_cons] at hx
    rcases hx with rfl | rfl | rfl | hx
    · exact ⟨t, List.mem_cons_self t ts, Or.inl rfl⟩
    · exact ⟨t, List.mem_cons_self t ts, Or.inr (Or.inl rfl)⟩
    · exact ⟨t, List.mem_cons_self t ts, Or.inr (Or.inr rfl)⟩
    · obtain ⟨u, hu, hxu⟩ := ih hx
      exact ⟨u, List.mem_cons_of_mem t hu, hxu⟩

/-- A stream from which an index `>= vertex_count` would be reconstructed
(decoding succeeds under a larger declared bound, with an out-of-range
index in the output) is rejected by the `vertex_count` decode with
`CorruptStream`. -/
theorem decodeIndex_reject {ic vc vcw : Nat} {stream out : List Nat}
    (h : meshopt_decodeIndexBuffer ic vcw stream = .ok out)
    (hbad : ∃ x ∈ out, vc ≤ x) :
    meshopt_decodeIndexBuffer ic vc stream = .error .CorruptStream := by
  unfold meshopt_decodeIndexBuffer at h
  by_cases hic : ic % 3 ≠ 0
  · rw [if_pos hic] at h
    exact absurd h (by simp)
  · rw [if_neg hic] at h
    cases stream with
    | nil => exact absurd h (by simp)
    | cons ver body =>
      replace h : (if ver ≠ 1 then (Except.error .InvalidFormatVersion :
            Except DecodeError (List Nat))
          else match decTris vcw (ic / 3) initIState body with
            | .ok (tris, rest) =>
              if rest = [] then .ok (flat3 tris) else .error .ShapeMismatch
            | .error e => .error e) = .ok out := h
      by_cases hver : ver ≠ 1
      · rw [if_pos hver] at h
        exact absurd h (by simp)
      · rw [if_neg hver] at h
        cases hd : decTris vcw (ic / 3) initIState body with
        | error e =>
          rw [hd] at h
          exact absurd h (by simp)
        | ok p =>
          obtain ⟨tris, rest⟩ := p
          rw [hd] at h
          replace h : (if rest = [] then (Except.ok (flat3 tris) :
                Except DecodeError (List Nat))
              else .error .ShapeMismatch) = .ok out := h
          by_cases hrest : rest = []
          · rw [if_pos hrest] at h
            injection h with h
            obtain ⟨x, hxm, hxge⟩ := hbad
            rw [← h] at hxm
            obtain ⟨t, htm, hxt⟩ := flat3_mem hxm
            have htbad : ¬validTri vc t := by
              unfold validTri
              rcases hxt with rfl | rfl | rfl <;> omega
            have hrej := decTris_reject hd ⟨t, htm, htbad⟩
            unfold meshopt_decodeIndexBuffer
            rw [if_neg hic]
            show (if ver ≠ 1 then (Except.error .InvalidFormatVersion :
                  Except DecodeError (List Nat))
                else match decTris vc (ic / 3) initIState body with
                  | .ok (tris, rest) =>
                    if rest = [] then .ok (flat3 tris) else .error .ShapeMismatch
                  | .error e => .error e) = .error .CorruptStream
            rw [if_neg hver, hrej]
          · rw [if_neg hrest] at h
            exact absurd h (by simp)

/-! ### The claims -/

/-- Claim C1: for every valid index buffer `I` (length a multiple of 3,
every index below `vertex_count`), decoding the encoding of `I` with the
declared `index_count` and `vertex_count` reproduces `I` exactly. -/
theorem claim_C1 (vertex_count : Nat) (indices : List Nat)
    (hlen : indices.length % 3 = 0) (hval : ∀ x ∈ indices, x < vertex_count) :
    meshopt_decodeIndexBuffer indices.length vertex_count (encodeIndexStream indices) =
      .ok indices :=
  indexRoundtrip hlen hval

theorem claim_C1_witness :
    meshopt_decodeIndexBuffer 6 4 (encodeIndexStream [0, 1, 2, 2, 1, 3]) =
      .ok [0, 1, 2, 2, 1, 3] :=
  claim_C1 4 [0, 1, 2, 2, 1, 3] (by decide) (by decide)

/-- Claim C2: for every vertex buffer `V` of `vertex_count` records of
`vertex_size` bytes each, decoding the encoding of `V` reproduces `V`
byte-for-byte, regardless of what the bytes represent. -/
theorem claim_C2 (vertex_count vertex_size : Nat) (v : List Nat)
    (hlen : v.length = vertex_count * vertex_size) (hb : ∀ b ∈ v, b < 256) :
    meshopt_decodeVertexBuffer vertex_count vertex_size
      (encodeVertexStream vertex_count vertex_size v) = .ok v :=
  vertexRoundtrip hlen hb

theorem claim_C2_witness :
    meshopt_decodeVertexBuffer 2 3 (encodeVertexStream 2 3 [1, 2, 3, 200, 5, 6]) =
      .ok [1, 2, 3, 200, 5, 6] :=
  claim_C2 2 3 [1, 2, 3, 200, 5, 6] (by decide) (by decide)

/-- Claim C3: every reconstructed index is validated against the declared
`vertex_count` before being written.  First, a successful decode only ever
wrote indices below `vertex_count`.  Second, for every encoded stream from
which an index `>= vertex_count` would be reconstructed — the
reconstruction being witnessed by a successful decode of the same stream
under a larger declared bound `wide_count`, with an index `>= vertex_count`
in its output — `decodeIndexBuffer` with the declared `vertex_count`
returns the `CorruptStream` error rather than writing that index. -/
theorem claim_C3 (index_count vertex_count wide_count : Nat) (stream out : List Nat) :
    (meshopt_decodeIndexBuffer index_count vertex_count stream = .ok out →
      ∀ x ∈ out, x < vertex_count) ∧
    (meshopt_decodeIndexBuffer index_count wide_count stream = .ok out →
      (∃ x ∈ out, vertex_count ≤ x) →
      meshopt_decodeIndexBuffer index_count vertex_count stream = .error .CorruptStream) :=
  ⟨fun h => decodeIndex_sound h, fun h hbad => decodeIndex_reject h hbad⟩

theorem claim_C3_witness :
    (3 : Nat) < 4 ∧
    meshopt_decodeIndexBuffer 6 2 (encodeIndexStream [0, 1, 2, 2, 1, 3]) =
      .error .CorruptStream :=
  ⟨(claim_C3 6 4 4 (encodeIndexStream [0, 1, 2, 2, 1, 3]) [0, 1, 2, 2, 1, 3]).1 (by rfl)
      3 (by decide),
   (claim_C3 6 2 4 (encodeIndexStream [0, 1, 2, 2, 1, 3]) [0, 1, 2, 2, 1, 3]).2 (by rfl)
      ⟨3, by decide, by decide⟩⟩

/-- Claim C4: the encoding of a valid index buffer never exceeds
`encodeIndexBufferBound(len(I), vertex_count)`. -/
theorem claim_C4 (vertex_count : Nat) (indices : List Nat)
    (_hlen : indices.length % 3 = 0) (hval : ∀ x ∈ indices, x < vertex_count) :
    (encodeIndexStream indices).length ≤
      meshopt_encodeIndexBufferBound indices.length vertex_count :=
  indexBoundSound hval

theorem claim_C4_witness :
    (encodeIndexStream [0, 1, 2, 2, 1, 3]).length ≤ meshopt_encodeIndexBufferBound 6 4 :=
  claim_C4 4 [0, 1, 2, 2, 1, 3] (by decide) (by decide)

/-- Claim C5: `encodeVertexBufferBound(vertex_count, vertex_size)` is at
least the raw buffer size `vertex_count * vertex_size`, and no encoding of
a buffer of that shape exceeds it. -/
theorem claim_C5 (vertex_count vertex_size : Nat) (v : List Nat) :
    vertex_count * vertex_size ≤ meshopt_encodeVertexBufferBound vertex_count vertex_size ∧
    (encodeVertexStream vertex_count vertex_size v).length ≤
      meshopt_encodeVertexBufferBound vertex_count vertex_size :=
  ⟨vertexBoundGeRaw vertex_count vertex_size, vertexBoundSound vertex_count vertex_size v⟩

/-- Claim C6: each encoder returns 0 only when the destination capacity is
insufficient for the encoded stream; and whenever `buffer_size` is at least
the bound estimator's value (for the index codec, on a valid input), the
encoder returns a nonzero encoded size. -/
theorem claim_C6 (ibs vbs vertex_count vertex_size : Nat) (indices v : List Nat) :
    (meshopt_encodeIndexBuffer ibs indices = 0 →
      ibs < (encodeIndexStream indices).length) ∧
    ((∀ x ∈ indices, x < vertex_count) →
      meshopt_encodeIndexBufferBound indices.length vertex_count ≤ ibs →
      meshopt_encodeIndexBuffer ibs indices ≠ 0) ∧
    (meshopt_encodeVertexBuffer vbs vertex_count vertex_size v = 0 →
      vbs < (encodeVertexStream vertex_count vertex_size v).length) ∧
    (meshopt_encodeVertexBufferBound vertex_count vertex_size ≤ vbs →
      meshopt_encodeVertexBuffer vbs vertex_count vertex_size v ≠ 0) := by
  refine ⟨?_, ?_, ?_, ?_⟩
  · intro h0
    by_contra hlt
    rw [not_lt] at hlt
    unfold meshopt_encodeIndexBuffer at h0
    rw [if_pos hlt] at h0
    have := encodeIndexStream_pos indices
    omega
  · intro hval hbound
    have hle : (encodeIndexStream indices).length ≤ ibs :=
      Nat.le_trans (indexBoundSound hval) hbound
    unfold meshopt_encodeIndexBuffer
    rw [if_pos hle]
    have := encodeIndexStream_pos indices
    omega
  · intro h0
    by_contra hlt
    rw [not_lt] at hlt
    unfold meshopt_encodeVertexBuffer at h0
    rw [if_pos hlt] at h0
    have := encodeVertexStream_pos vertex_count vertex_size v
    omega
  · intro hbound
    have hle : (encodeVertexStream vertex_count vertex_size v).length ≤ vbs :=
      Nat.le_trans (vertexBoundSound vertex_count vertex_size v) hbound
    unfold meshopt_encodeVertexBuffer
    rw [if_pos hle]
    have := encodeVertexStream_pos vertex_count vertex_size v
    omega

theorem claim_C6_witness : meshopt_encodeVertexBuffer 40 2 2 [1, 2, 3, 4] ≠ 0 :=
  (claim_C6 20 40 2 2 [0, 1, 2, 2, 1, 3] [1, 2, 3, 4]).2.2.2 (by decide)

/-- Claim C7: removing at least one byte from the end of a valid encoded
index stream makes `decodeIndexBuffer` return `CorruptStream` or
`ShapeMismatch`; it never returns success with a wrong output. -/
theorem claim_C7 (vertex_count k : Nat) (indices : List Nat)
    (hlen : indices.length % 3 = 0) (hval : ∀ x ∈ indices, x < vertex_count)
    (hk : k < (encodeIndexStream indices).length) :
    ∃ e, meshopt_decodeIndexBuffer indices.length vertex_count
        ((encodeIndexStream indices).take k) = .error e ∧
      (e = .CorruptStream ∨ e = .ShapeMismatch) :=
  indexTruncation hlen hval hk

theorem claim_C7_witness :
    ∃ e, meshopt_decodeIndexBuffer 6 4 ((encodeIndexStream [0, 1, 2, 2, 1, 3]).take 7) =
        .error e ∧ (e = .CorruptStream ∨ e = .ShapeMismatch) :=
  claim_C7 4 7 [0, 1, 2, 2, 1, 3] (by decide) (by decide) (by decide)

/-- Claim C8: degenerate shapes work without error: `index_count == 0` and
`vertex_count == 0` encode to and decode from an empty body (just the
format byte), and a single-record vertex buffer round-trips exactly for
every `vertex_size`, including `vertex_size == 0`. -/
theorem claim_C8 (vertex_count vertex_size : Nat) (v : List Nat)
    (hv : v.length = vertex_size) (hb : ∀ b ∈ v, b < 256) :
    encodeIndexStream [] = [1] ∧
    meshopt_decodeIndexBuffer 0 vertex_count (encodeIndexStream []) = .ok [] ∧
    encodeVertexStream 0 vertex_size [] = [1] ∧
    meshopt_decodeVertexBuffer 0 vertex_size (encodeVertexStream 0 vertex_size []) = .ok [] ∧
    meshopt_decodeVertexBuffer 1 vertex_size (encodeVertexStream 1 vertex_size v) = .ok v := by
  refine ⟨rfl, ?_, rfl, ?_, ?_⟩
  · exact indexRoundtrip (l := []) rfl (by simp)
  · exact vertexRoundtrip (by simp) (by simp)
  · exact vertexRoundtrip (by simpa using hv) hb

theorem claim_C8_witness :
    encodeIndexStream [] = [1] ∧
    meshopt_decodeIndexBuffer 0 5 (encodeIndexStream []) = .ok [] ∧
    encodeVertexStream 0 2 [] = [1] ∧
    meshopt_decodeVertexBuffer 0 2 (encodeVertexStream 0 2 []) = .ok [] ∧
    meshopt_decodeVertexBuffer 1 2 (encodeVertexStream 1 2 [7, 9]) = .ok [7, 9] :=
  claim_C8 5 2 [7, 9] (by decide) (by decide)

/-- Claim C9: the templated `meshopt_encodeIndexBuffer<T>` wrapper computes
the same result as the underlying C function applied to the element-wise
widening of the input to `unsigned int` (which is value-preserving for the
supported index types, so also the same as the C function on the original
values); the adapter's exit narrowing recovers the `T` values exactly; and
when `sizeof(T) == sizeof(unsigned int)` the wrapper is exactly the C
function on the reinterpreted (uncopied) buffer. -/
theorem claim_C9 (sz : Nat) (f : List Nat → Nat) (indices : List Nat)
    (hT : sz = 2 ∨ sz = 4) (hrange : ∀ x ∈ indices, x < 2 ^ (8 * sz)) :
    meshopt_encodeIndexBufferT sz f indices = f (meshopt_IndexAdapter_widen indices) ∧
    meshopt_IndexAdapter_widen indices = indices ∧
    meshopt_IndexAdapter_narrow sz (meshopt_IndexAdapter_widen indices) = indices ∧
    (sz = 4 → meshopt_encodeIndexBufferT sz f indices =
      f (meshopt_IndexAdapter_zero indices)) := by
  have hwiden : meshopt_IndexAdapter_widen indices = indices := by
    unfold meshopt_IndexAdapter_widen
    have hpt : ∀ x ∈ indices, x % 2 ^ 32 = id x := by
      intro x hx
      have := hrange x hx
      rcases hT with rfl | rfl <;> (simp only [id]; omega)
    rw [List.map_congr_left hpt, List.map_id]
  refine ⟨?_, hwiden, ?_, ?_⟩
  · unfold meshopt_encodeIndexBufferT
    rcases hT with rfl | rfl
    · rw [if_neg (by omega)]
    · rw [if_pos rfl]
      unfold meshopt_IndexAdapter_zero
      rw [hwiden]
  · rw [hwiden]
    unfold meshopt_IndexAdapter_narrow
    have hpt : ∀ x ∈ indices, x % 2 ^ (8 * sz) = id x := by
      intro x hx
      have := hrange x hx
      simp only [id]
      exact Nat.mod_eq_of_lt this
    rw [List.map_congr_left hpt, List.map_id]
  · intro hsz
    unfold meshopt_encodeIndexBufferT
    rw [if_pos hsz]

theorem claim_C9_witness :
    meshopt_encodeIndexBufferT 2 List.length [1, 2] =
      List.length (meshopt_IndexAdapter_widen [1, 2]) ∧
    meshopt_IndexAdapter_widen [1, 2] = [1, 2] ∧
    meshopt_IndexAdapter_narrow 2 (meshopt_IndexAdapter_widen [1, 2]) = [1, 2] ∧
    ((2 : Nat) = 4 → meshopt_encodeIndexBufferT 2 List.length [1, 2] =
      List.length (meshopt_IndexAdapter_zero [1, 2])) :=
  claim_C9 2 List.length [1, 2] (Or.inl rfl) (by decide)

/-- Claim C10: `meshopt_quantizeHalf`, on a 32-bit float bit pattern with
sign bit field `s` and magnitude bits `em`: inputs with `em < 113<<23`
(denormal or small) map to the signed zero `s`; inputs with `143<<23 <= em
<= 255<<23` (overflow or infinity) map to `s | 0x7c00`; and inputs with
`em > 255<<23` (NaN) map to the quiet NaN `s | 0x7e00` with the sign
preserved. -/
theorem claim_C10 (ui : Nat) (_hui : ui < 2 ^ 32) :
    ((ui &&& 0x7fffffff) < 113 * 2 ^ 23 →
      meshopt_quantizeHalf ui = (ui >>> 16) &&& 0x8000) ∧
    (143 * 2 ^ 23 ≤ (ui &&& 0x7fffffff) ∧ (ui &&& 0x7fffffff) ≤ 255 * 2 ^ 23 →
      meshopt_quantizeHalf ui = ((ui >>> 16) &&& 0x8000) ||| 0x7c00) ∧
    (255 * 2 ^ 23 < (ui &&& 0x7fffffff) →
      meshopt_quantizeHalf ui = ((ui >>> 16) &&& 0x8000) ||| 0x7e00) := by
  have hs : (ui >>> 16) &&& 0x8000 ≤ 0x8000 := Nat.and_le_right
  have hs16 : (ui >>> 16) &&& 0x8000 < 2 ^ 16 := by omega
  refine ⟨?_, ?_, ?_⟩
  · intro hem
    simp only [meshopt_quantizeHalf]
    rw [if_neg (by omega), if_neg (by omega), if_pos hem]
    simp only [Int.toNat_zero, Nat.or_zero]
    omega
  · intro hem
    simp only [meshopt_quantizeHalf]
    rw [if_neg (by omega), if_pos hem.1]
    have htn : ((0x7c00 : Int)).toNat = 0x7c00 := rfl
    rw [htn]
    have hor := @Nat.or_lt_two_pow ((ui >>> 16) &&& 0x8000) 0x7c00 16 hs16 (by omega)
    omega
  · intro hem
    simp only [meshopt_quantizeHalf]
    rw [if_pos hem]
    have htn : ((0x7e00 : Int)).toNat = 0x7e00 := rfl
    rw [htn]
    have hor := @Nat.or_lt_two_pow ((ui >>> 16) &&& 0x8000) 0x7e00 16 hs16 (by omega)
    omega

theorem claim_C10_witness :
    meshopt_quantizeHalf 0x00000001 = (0x00000001 >>> 16) &&& 0x8000 ∧
    meshopt_quantizeHalf 0x7f800000 = ((0x7f800000 >>> 16) &&& 0x8000) ||| 0x7c00 ∧
    meshopt_quantizeHalf 0xffc00000 = ((0xffc00000 >>> 16) &&& 0x8000) ||| 0x7e00 :=
  ⟨(claim_C10 0x00000001 (by decide)).1 (by decide),
   (claim_C10 0x7f800000 (by decide)).2.1 (by decide),
   (claim_C10 0xffc00000 (by decide)).2.2 (by decide)⟩
